import Mathlib

/-!
Verification development for the LLM batch evaluator.

The source is a single-page React application whose core is a
bounded-concurrency batch execution engine.  This file gives a shallow
embedding of that core:

* JS strings are modelled as `List Char`;
* JS objects / JSON values are modelled by the mutual inductives
  `JVal`/`JArr`/`JObj` (rows of the table are `JObj`s, mirroring the JS
  objects produced by CSV parsing);
* `JSON.stringify` / `JSON.parse` are modelled by `JVal.stringify` and
  `jsonParse` (numbers restricted to integers; the rarely-exercised
  `\u` escapes are not modelled);
* the helper functions `stripCodeFences`, `parseJsonLoose`,
  `renderTemplate`, `estimateOpenAIPrice` are translated directly from
  the source;
* the per-record retry loop and the surrounding batch orchestration of
  `handleStart` are modelled by `attemptLoop`, `runTask` and
  `handleStart`, with the network call abstracted as an oracle and the
  cancellation flag abstracted as the Boolean sequence of values the
  loop observes;
* the concurrency limiter `useConcurrentQueue` is modelled as a small
  transition system (`limStep`) over the events that are atomic in the
  JavaScript event loop.

Several recursive functions take an explicit fuel argument (structural
recursion on the fuel) so that every definition reduces inside the
kernel; the fuel chosen by the wrappers is always sufficient, which the
corresponding lemmas prove.
-/

/-! ### Character-level utilities (JS string semantics over `List Char`) -/

/-- JS whitespace (the subset relevant here) as used by `trim` and `\s`. -/
def isJsWs (c : Char) : Bool :=
  c = ' ' || c = '\n' || c = '\t' || c = '\r' || c = '\x0b' || c = '\x0c'

/-- Model of `String.prototype.trim`. -/
def trimChars (l : List Char) : List Char :=
  ((l.dropWhile isJsWs).reverse.dropWhile isJsWs).reverse

/-- ASCII letters, as matched by the regex class `[a-zA-Z]`. -/
def isAsciiAlpha (c : Char) : Bool :=
  ('a' ≤ c && c ≤ 'z') || ('A' ≤ c && c ≤ 'Z')

/-- ASCII digits. -/
def isDigitChar (c : Char) : Bool :=
  '0' ≤ c && c ≤ '9'

/-- The decimal digit character for `d % 10`. -/
def digitChar (d : Nat) : Char :=
  match d with
  | 0 => '0' | 1 => '1' | 2 => '2' | 3 => '3' | 4 => '4'
  | 5 => '5' | 6 => '6' | 7 => '7' | 8 => '8' | _ => '9'

/-- Numeric value of a digit character. -/
def undigitChar (c : Char) : Nat := c.toNat - 48

/-- Decimal rendering of a natural number, with explicit fuel
(`natToChars` always supplies enough). -/
def natToCharsCore : Nat → Nat → List Char → List Char
  | 0, _, acc => acc
  | fuel + 1, n, acc =>
    if n < 10 then digitChar n :: acc
    else natToCharsCore fuel (n / 10) (digitChar (n % 10) :: acc)

/-- Decimal rendering of a natural number (JS `String(n)` for naturals). -/
def natToChars (n : Nat) : List Char := natToCharsCore (n + 1) n []

/-- Decimal reading of a digit list. -/
def charsToNat (l : List Char) : Nat :=
  l.foldl (fun a c => a * 10 + undigitChar c) 0

/-- JS `String(n)` for an integer. -/
def intToChars (n : Int) : List Char :=
  if n < 0 then '-' :: natToChars n.natAbs else natToChars n.toNat

/-! ### JSON values

JS objects and JSON values, as mutual inductives (`JObj` doubles as the
model of a row object of the table). -/

mutual
inductive JVal where
  | null : JVal
  | bool (b : Bool) : JVal
  | num (n : Int) : JVal
  | str (s : String) : JVal
  | arr (items : JArr) : JVal
  | obj (fields : JObj) : JVal
  deriving DecidableEq
inductive JArr where
  | nil : JArr
  | cons (hd : JVal) (tl : JArr) : JArr
  deriving DecidableEq
inductive JObj where
  | nil : JObj
  | cons (k : String) (v : JVal) (tl : JObj) : JObj
  deriving DecidableEq
end

/-- Property lookup on an object (`o[k]`; `none` models `undefined`). -/
def JObj.getField : JObj → String → Option JVal
  | .nil, _ => none
  | .cons k v t, key => if k = key then some v else t.getField key

/-- The object `{...o, [key]: val}`: replace in place if the key exists,
append otherwise (JS key-order semantics). -/
def JObj.setField : JObj → String → JVal → JObj
  | .nil, key, val => .cons key val .nil
  | .cons k v t, key, val =>
    if k = key then .cons k val t else .cons k v (t.setField key val)

/-- JSON string escaping for one character (the escapes `JSON.stringify`
emits for the characters modelled here). -/
def escapeChar (c : Char) : List Char :=
  if c = '"' then ['\\', '"']
  else if c = '\\' then ['\\', '\\']
  else if c = '\n' then ['\\', 'n']
  else if c = '\t' then ['\\', 't']
  else if c = '\r' then ['\\', 'r']
  else [c]

/-- JSON string escaping. -/
def escapeStr : List Char → List Char
  | [] => []
  | c :: t => escapeChar c ++ escapeStr t

mutual
/-- Model of `JSON.stringify` (compact form, as called in the source). -/
def JVal.stringify : JVal → List Char
  | .null => "null".data
  | .bool true => "true".data
  | .bool false => "false".data
  | .num n => intToChars n
  | .str s => '"' :: escapeStr s.data ++ ['"']
  | .arr a => '[' :: JArr.stringifyItems a ++ [']']
  | .obj o => '\x7b' :: JObj.stringifyFields o ++ ['\x7d']
/-- Comma-separated serialization of array items. -/
def JArr.stringifyItems : JArr → List Char
  | .nil => []
  | .cons x .nil => JVal.stringify x
  | .cons x (.cons y t) =>
      JVal.stringify x ++ ',' :: JArr.stringifyItems (.cons y t)
/-- Comma-separated serialization of object fields. -/
def JObj.stringifyFields : JObj → List Char
  | .nil => []
  | .cons k v .nil => '"' :: escapeStr k.data ++ '"' :: ':' :: JVal.stringify v
  | .cons k v (.cons k' v' t) =>
      '"' :: escapeStr k.data ++ '"' :: ':' :: JVal.stringify v ++
        ',' :: JObj.stringifyFields (.cons k' v' t)
end

mutual
/-- JS `String(v)` coercion of a value. -/
def JVal.jsToString : JVal → List Char
  | .null => "null".data
  | .bool true => "true".data
  | .bool false => "false".data
  | .num n => intToChars n
  | .str s => s.data
  | .arr a => JArr.jsJoin a
  | .obj _ => "[object Object]".data
/-- JS array-to-string (`join(",")`, with `null` elements empty). -/
def JArr.jsJoin : JArr → List Char
  | .nil => []
  | .cons .null .nil => []
  | .cons x .nil => JVal.jsToString x
  | .cons .null (.cons y t) => ',' :: JArr.jsJoin (.cons y t)
  | .cons x (.cons y t) =>
      JVal.jsToString x ++ ',' :: JArr.jsJoin (.cons y t)
end

/-! ### Model of `JSON.parse`

A recursive-descent reader over `List Char`, structurally recursive on
an explicit fuel (the wrapper `jsonParse` supplies enough fuel for every
serialized value, as proved below).  Numbers are restricted to integers. -/

/-- Skip JSON whitespace. -/
def skipWs (l : List Char) : List Char := l.dropWhile isJsWs

/-- Read the escape named by the character after a backslash. -/
def unescapeChar (c : Char) : Option Char :=
  if c = '"' then some '"'
  else if c = '\\' then some '\\'
  else if c = '/' then some '/'
  else if c = 'n' then some '\n'
  else if c = 't' then some '\t'
  else if c = 'r' then some '\r'
  else if c = 'b' then some '\x08'
  else if c = 'f' then some '\x0c'
  else none

/-- Read a JSON string body (after the opening quote) up to the closing
quote, unescaping; fuelled (the wrapper `parseString` supplies enough). -/
def parseStringBody : Nat → List Char → Option (List Char × List Char)
  | 0, _ => none
  | _ + 1, [] => none
  | fuel + 1, c :: r =>
    if c = '"' then some ([], r)
    else if c = '\\' then
      match r with
      | [] => none
      | e :: r2 =>
        match unescapeChar e with
        | none => none
        | some d =>
          match parseStringBody fuel r2 with
          | none => none
          | some (cs, rest) => some (d :: cs, rest)
    else
      match parseStringBody fuel r with
      | none => none
      | some (cs, rest) => some (c :: cs, rest)

/-- Read a JSON string body. -/
def parseString (r : List Char) : Option (List Char × List Char) :=
  parseStringBody (r.length + 1) r

/-- Read an unsigned integer literal (rejecting a fractional or exponent
continuation, which is outside the modelled fragment). -/
def parseNatNum (s : List Char) : Option (Nat × List Char) :=
  let ds := s.takeWhile isDigitChar
  let rest := s.dropWhile isDigitChar
  if ds = [] then none
  else
    match rest with
    | c :: _ =>
      if c = '.' || c = 'e' || c = 'E' then none else some (charsToNat ds, rest)
    | [] => some (charsToNat ds, rest)

mutual
/-- Read one JSON value. -/
def parseVal : Nat → List Char → Option (JVal × List Char)
  | 0, _ => none
  | fuel + 1, s =>
    match skipWs s with
    | [] => none
    | c :: r =>
      if c = 'n' then
        match r with
        | 'u' :: 'l' :: 'l' :: r' => some (.null, r')
        | _ => none
      else if c = 't' then
        match r with
        | 'r' :: 'u' :: 'e' :: r' => some (.bool true, r')
        | _ => none
      else if c = 'f' then
        match r with
        | 'a' :: 'l' :: 's' :: 'e' :: r' => some (.bool false, r')
        | _ => none
      else if c = '"' then
        match parseString r with
        | some (cs, r') => some (.str cs.asString, r')
        | none => none
      else if c = '[' then
        match skipWs r with
        | [] => none
        | c2 :: r2 =>
          if c2 = ']' then some (.arr .nil, r2)
          else
            match parseArrItems fuel r with
            | some (a, r') => some (.arr a, r')
            | none => none
      else if c = '\x7b' then
        match skipWs r with
        | [] => none
        | c2 :: r2 =>
          if c2 = '\x7d' then some (.obj .nil, r2)
          else
            match parseObjFields fuel r with
            | some (o, r') => some (.obj o, r')
            | none => none
      else if c = '-' then
        match parseNatNum r with
        | some (n, r') => some (.num (-(n : Int)), r')
        | none => none
      else if isDigitChar c then
        match parseNatNum (c :: r) with
        | some (n, r') => some (.num (n : Int), r')
        | none => none
      else none
/-- Read the non-empty item list of an array, up to and including the
closing bracket. -/
def parseArrItems : Nat → List Char → Option (JArr × List Char)
  | 0, _ => none
  | fuel + 1, s =>
    match parseVal fuel s with
    | none => none
    | some (v, r) =>
      match skipWs r with
      | [] => none
      | c :: r' =>
        if c = ',' then
          match parseArrItems fuel r' with
          | some (a, rest) => some (.cons v a, rest)
          | none => none
        else if c = ']' then some (.cons v .nil, r')
        else none
/-- Read the non-empty field list of an object, up to and including
the closing brace. -/
def parseObjFields : Nat → List Char → Option (JObj × List Char)
  | 0, _ => none
  | fuel + 1, s =>
    match skipWs s with
    | [] => none
    | c :: r =>
      if c = '"' then
        match parseString r with
        | none => none
        | some (k, r1) =>
          match skipWs r1 with
          | [] => none
          | c2 :: r2 =>
            if c2 = ':' then
              match parseVal fuel r2 with
              | none => none
              | some (v, r3) =>
                match skipWs r3 with
                | [] => none
                | c3 :: r4 =>
                  if c3 = ',' then
                    match parseObjFields fuel r4 with
                    | some (o, rest) => some (.cons k.asString v o, rest)
                    | none => none
                  else if c3 = '\x7d' then some (.cons k.asString v .nil, r4)
                  else none
            else none
      else none
end

/-- Model of `JSON.parse`: whole-input read, rejecting trailing
non-whitespace.  Error messages are representative strings; the source
only propagates them opaquely. -/
def jsonParse (s : List Char) : Except String JVal :=
  match parseVal (2 * s.length + 2) s with
  | some (v, rest) =>
    if skipWs rest = [] then .ok v
    else .error "Unexpected non-whitespace character after JSON data"
  | none => .error "Unexpected token in JSON"

/-! ### `stripCodeFences` and `parseJsonLoose` (translated from source) -/

/-- Does the text start with three backticks? -/
def startsWithTicks (l : List Char) : Bool := l.take 3 = "```".data

/-- Model of `stripCodeFences` (source lines 53-59): trim; if the text
starts with three backticks, delete the regex match
of three backticks plus a language tag plus an optional newline at the
start, delete the match of three backticks plus trailing whitespace at
the end, and trim again. -/
def stripCodeFences (s : List Char) : List Char :=
  let t := trimChars s
  if startsWithTicks t then
    let r1 := (t.drop 3).dropWhile isAsciiAlpha
    let r2 := match r1 with
              | '\n' :: x => x
              | _ => r1
    let rev := r2.reverse.dropWhile isJsWs
    let r3 := if startsWithTicks rev then (rev.drop 3).reverse else r2
    trimChars r3
  else t

/-- Index of the first occurrence of a character (JS `indexOf`, with
`none` for `-1`). -/
def firstIdxOf (c : Char) : List Char → Option Nat
  | [] => none
  | x :: t => if x = c then some 0 else (firstIdxOf c t).map (· + 1)

/-- Index of the last occurrence of a character (JS `lastIndexOf`). -/
def lastIdxOf (c : Char) : List Char → Option Nat
  | [] => none
  | x :: t =>
    match lastIdxOf c t with
    | some j => some (j + 1)
    | none => if x = c then some 0 else none

/-- Model of `parseJsonLoose` (source lines 61-79): reject blank input;
strip code fences; try a direct parse; on failure try the inclusive
slice from the first brace to the last brace; report the most recent
parse error. -/
def parseJsonLoose (s : List Char) : Except String JVal :=
  if trimChars s = [] then .error "empty"
  else
    let t := stripCodeFences s
    match jsonParse t with
    | .ok v => .ok v
    | .error e1 =>
      match firstIdxOf '\x7b' t, lastIdxOf '\x7d' t with
      | some start, some stop =>
        if start < stop then
          match jsonParse ((t.drop start).take (stop + 1 - start)) with
          | .ok v => .ok v
          | .error e2 => .error e2
        else .error e1
      | some _, none => .error e1
      | none, _ => .error e1

/-! ### `renderTemplate` (source lines 81-87)

The regex `/\{\{\s*([^}]+)\s*\}\}/g` matches, at a position, two braces
followed by a non-empty run of non-`}` characters followed by two
braces; the replacement trims the captured text (which is the run minus
whatever whitespace the `\s*` groups consumed, so trimming the whole
run is equivalent).  `renderTemplateCore` is the left-to-right scan of
`String.prototype.replace` with a global regex. -/

/-- Try to match the placeholder body at the current position: the text
after the two opening braces must continue with a non-empty run of
non-`}` characters followed by `\x7d\x7d`.  Returns the raw body and
the text after the closing braces. -/
def tmplMatch (t : List Char) : Option (List Char × List Char) :=
  match t.drop (t.takeWhile (fun c => c ≠ '\x7d')).length with
  | '\x7d' :: '\x7d' :: rest =>
    if t.takeWhile (fun c => c ≠ '\x7d') = [] then none
    else some (t.takeWhile (fun c => c ≠ '\x7d'), rest)
  | _ => none

/-- The replacement for one matched placeholder (source lines 83-86):
`json` yields the serialized row; a key present with a non-null,
non-undefined value yields `String(row[k])`; anything else yields the
empty string. -/
def tmplReplacement (row : JObj) (rawKey : List Char) : List Char :=
  let k := trimChars rawKey
  if k = "json".data then JVal.stringify (.obj row)
  else
    match row.getField k.asString with
    | some v =>
      match v with
      | .null => []
      | _ => v.jsToString
    | none => []

/-- The `replace` scan, fuelled (fuel bounded by the template length):
at each position, if a placeholder matches, emit its replacement and
continue after it; otherwise copy one character and continue. -/
def renderTemplateCore (row : JObj) : Nat → List Char → List Char
  | 0, s => s
  | fuel + 1, s =>
    match s with
    | [] => []
    | c :: t =>
      if c = '\x7b' then
        match t with
        | [] => c :: renderTemplateCore row fuel t
        | c2 :: t2 =>
          if c2 = '\x7b' then
            match tmplMatch t2 with
            | some (body, rest) =>
              tmplReplacement row body ++ renderTemplateCore row fuel rest
            | none => c :: renderTemplateCore row fuel t
          else c :: renderTemplateCore row fuel t
      else c :: renderTemplateCore row fuel t

/-- Model of `renderTemplate` (source lines 81-87). -/
def renderTemplate (tpl : String) (row : JObj) : List Char :=
  renderTemplateCore row (tpl.data.length + 1) tpl.data

/-! The specification's description of the renderer, written as an
independent implementation: repeatedly locate the first placeholder
occurrence and replace it.  Two replacement tables are given: the
claim's verbatim one (`specReplacement`: any present key renders with
`String(·)`) and the amended one (`amendedReplacement`: a present key
bound to `null` renders empty, as the source does). -/

/-- Locate the first placeholder occurrence: returns the text before
the match, the raw body, and the text after the closing braces. -/
def findPlaceholder : List Char → Option (List Char × List Char × List Char)
  | [] => none
  | c :: t =>
    if c = '\x7b' then
      match t with
      | [] => none
      | c2 :: t2 =>
        if c2 = '\x7b' then
          match tmplMatch t2 with
          | some (body, rest) => some ([], body, rest)
          | none => (findPlaceholder t).map fun p => (c :: p.1, p.2.1, p.2.2)
        else (findPlaceholder t).map fun p => (c :: p.1, p.2.1, p.2.2)
    else (findPlaceholder t).map fun p => (c :: p.1, p.2.1, p.2.2)

/-- Spec-verbatim replacement: "the string form of `record[key]` if
present; otherwise the empty string". -/
def specReplacement (row : JObj) (k : List Char) : List Char :=
  if k = "json".data then JVal.stringify (.obj row)
  else
    match row.getField k.asString with
    | some v => v.jsToString
    | none => []

/-- Amended replacement: a present key bound to `null` also renders as
the empty string (mirroring the source's `!= null` test). -/
def amendedReplacement (row : JObj) (k : List Char) : List Char :=
  if k = "json".data then JVal.stringify (.obj row)
  else
    match row.getField k.asString with
    | some .null => []
    | some v => v.jsToString
    | none => []

/-- Find-and-replace-first loop over a replacement table, fuelled. -/
def specRenderCore (repl : JObj → List Char → List Char) (row : JObj) :
    Nat → List Char → List Char
  | 0, s => s
  | fuel + 1, s =>
    match findPlaceholder s with
    | none => s
    | some (pre, body, rest) =>
      pre ++ repl row (trimChars body) ++ specRenderCore repl row fuel rest

/-- Modelled from the spec: the renderer as the spec's words describe
it, with the claim's verbatim replacement rule. -/
def specRenderTemplate (tpl : String) (row : JObj) : List Char :=
  specRenderCore specReplacement row (tpl.data.length + 1) tpl.data

/-- Modelled from the spec: the renderer as the spec's words describe
it, with the amended (null-is-empty) replacement rule. -/
def specRenderTemplateAmended (tpl : String) (row : JObj) : List Char :=
  specRenderCore amendedReplacement row (tpl.data.length + 1) tpl.data

/-! ### `estimateOpenAIPrice` (source lines 144-155)

JS number arithmetic is modelled exactly over `ℚ`. -/

/-- The per-model price table (USD per 1000 tokens, input/output). -/
def pricePer1k : List (String × ℚ × ℚ) :=
  [("gpt-4o", (2.5, 10)),
   ("gpt-4o-mini", (0.15, 0.6)),
   ("gpt-4.1-mini", (0.2, 0.8)),
   ("gpt-3.5-turbo", (0.5, 1.5))]

/-- The three cost figures returned by `estimateOpenAIPrice`. -/
structure PriceEstimate where
  promptUSD : ℚ
  completionUSD : ℚ
  totalUSD : ℚ
  deriving DecidableEq

/-- Model of `estimateOpenAIPrice`: unknown models fall back to the
`gpt-4o-mini` entry (`pricePer1k[model] || pricePer1k["gpt-4o-mini"]`). -/
def estimateOpenAIPrice (model : String) (promptTokens completionTokens : ℚ) :
    PriceEstimate :=
  let p := (pricePer1k.lookup model).getD
    ((pricePer1k.lookup "gpt-4o-mini").getD (0, 0))
  let promptUSD := promptTokens / 1000 * p.1
  let completionUSD := completionTokens / 1000 * p.2
  ⟨promptUSD, completionUSD, promptUSD + completionUSD⟩

/-! ### The concurrency limiter `useConcurrentQueue` (source lines 246-266)

The limiter is modelled as a transition system whose three events are
the code sections that run atomically on the JavaScript event loop:

* `submit i` — the synchronous part of `run(task)`: test
  `running >= limit`; either push a resolver onto the queue and
  suspend, or increment `running` and start the task;
* `finish i` — the `finally` block: decrement `running`, shift the
  queue, and resolve the head waiter if any (the resolved waiter does
  not continue immediately — its continuation is a later microtask);
* `resume i` — the woken waiter's continuation: increment `running`
  and start the task.

`queuedLog`/`wokenLog` record the order in which tasks entered the
queue and were released from it. -/

/-- Lifecycle phase of one submission. -/
inductive LimPhase where
  | idle | queued | woken | active | finished
  deriving DecidableEq

/-- Limiter state: the `running` counter and waiter queue of the
source, plus per-submission phases and bookkeeping logs. -/
structure LimState where
  limit : Nat
  running : Nat
  queue : List Nat
  phases : List LimPhase
  queuedLog : List Nat
  wokenLog : List Nat
  deriving DecidableEq

/-- The three atomic events. -/
inductive LimEvent where
  | submit (i : Nat)
  | finish (i : Nat)
  | resume (i : Nat)
  deriving DecidableEq

/-- One atomic step of the limiter (`none` if the event is not enabled). -/
def limStep (s : LimState) : LimEvent → Option LimState
  | .submit i =>
    if s.phases[i]? = some .idle then
      if s.limit ≤ s.running then
        some { s with queue := s.queue ++ [i],
                      phases := s.phases.set i .queued,
                      queuedLog := s.queuedLog ++ [i] }
      else
        some { s with running := s.running + 1,
                      phases := s.phases.set i .active }
    else none
  | .finish i =>
    if s.phases[i]? = some .active then
      match s.queue with
      | [] => some { s with running := s.running - 1,
                            phases := s.phases.set i .finished }
      | j :: rest =>
        some { s with running := s.running - 1,
                      phases := (s.phases.set i .finished).set j .woken,
                      queue := rest,
                      wokenLog := s.wokenLog ++ [j] }
    else none
  | .resume j =>
    if s.phases[j]? = some .woken then
      some { s with running := s.running + 1,
                    phases := s.phases.set j .active }
    else none

/-- Initial limiter state for `n` tasks and admission limit `limit`. -/
def limInit (n limit : Nat) : LimState :=
  ⟨limit, 0, [], List.replicate n .idle, [], []⟩

/-- Run a sequence of events, returning every visited state (`none` if
some event is not enabled where it occurs). -/
def limExec : LimState → List LimEvent → Option (List LimState)
  | s, [] => some [s]
  | s, e :: es =>
    match limStep s e with
    | none => none
    | some s' => (limExec s' es).map (s :: ·)

/-- Is the event a submission? -/
def LimEvent.isSubmit : LimEvent → Bool
  | .submit _ => true
  | _ => false

/-! ### The per-record retry loop and batch orchestration
(`handleStart`, source lines 270-349)

The network call is abstracted as an oracle `req : Nat → ReqOutcome`
giving the outcome of the attempt with a given value of the `attempts`
counter, and the cancellation flag as the Boolean sequence
`cancel : Nat → Bool` of values the `while` condition observes.  The
backoff sleeps only affect timing and are not modelled. -/

/-- Outcome of one `fetchOpenAIChat` call: the reply content with its
usage counters, or a thrown error's message. -/
inductive ReqOutcome where
  | ok (content : String) (promptToks completionToks : Nat)
  | fail (msg : String)
  deriving DecidableEq

/-- How the per-record `while` loop ended. -/
inductive LoopExit where
  | succeeded (content : String) (promptToks completionToks : Nat)
  | exhausted (msg : String)
  | skipped
  deriving DecidableEq

/-- Result of the loop: its exit and the `attempts`-counter values at
which a request was actually started. -/
structure LoopResult where
  exit : LoopExit
  attemptIdxs : List Nat
  deriving DecidableEq

/-- The `while (attempts <= maxRetries && !cancelRef.current.cancel)`
loop (source lines 292-333), fuelled (the wrapper supplies
`maxRetries + 1`, which is enough since `attempts` grows by one per
iteration). -/
def attemptLoopCore (maxRetries : Nat) (cancel : Nat → Bool)
    (req : Nat → ReqOutcome) : Nat → Nat → LoopResult
  | 0, _ => ⟨.skipped, []⟩
  | fuel + 1, attempts =>
    if attempts ≤ maxRetries && !cancel attempts then
      match req attempts with
      | .ok content pt ct => ⟨.succeeded content pt ct, [attempts]⟩
      | .fail e =>
        if maxRetries < attempts + 1 then ⟨.exhausted e, [attempts]⟩
        else
          let r := attemptLoopCore maxRetries cancel req fuel (attempts + 1)
          ⟨r.exit, attempts :: r.attemptIdxs⟩
    else ⟨.skipped, []⟩

/-- The per-record attempt/retry loop. -/
def attemptLoop (maxRetries : Nat) (cancel : Nat → Bool)
    (req : Nat → ReqOutcome) : LoopResult :=
  attemptLoopCore maxRetries cancel req (maxRetries + 1) 0

/-- What one settled task contributes: the row written to
`updatedRows[idx]`, its token usage, the number of requests started,
and its exit. -/
structure TaskResult where
  row : JObj
  promptToks : Nat
  completionToks : Nat
  requests : Nat
  exit : LoopExit
  deriving DecidableEq

/-- One task body (source lines 288-333): run the attempt loop; on
success build the augmented Result row (raw output, `eval.valid`,
`<resultKey>_json`, promoted `eval.score`/`eval.decision`); on
exhausted retries build the synthetic-error Result; if the loop was
skipped by cancellation leave the row unchanged. -/
def runTask (maxRetries : Nat) (cancel : Nat → Bool) (req : Nat → ReqOutcome)
    (row : JObj) (resultKey : String) : TaskResult :=
  let r := attemptLoop maxRetries cancel req
  match r.exit with
  | .succeeded content pt ct =>
    let raw := content
    let augmented := row.setField resultKey (.str raw)
    match parseJsonLoose raw.data with
    | .ok val =>
      let augmented := augmented.setField "eval.valid" (.bool true)
      let augmented :=
        augmented.setField (resultKey ++ "_json") (.str (JVal.stringify val).asString)
      let augmented :=
        match val with
        | .obj o =>
          let augmented :=
            match o.getField "score" with
            | some sv => augmented.setField "eval.score" sv
            | none => augmented
          match o.getField "decision" with
          | some dv => augmented.setField "eval.decision" dv
          | none => augmented
        | _ => augmented
      ⟨augmented, pt, ct, r.attemptIdxs.length, r.exit⟩
    | .error _ =>
      let augmented := augmented.setField "eval.valid" (.bool false)
      let augmented := augmented.setField (resultKey ++ "_json") (.str "")
      ⟨augmented, pt, ct, r.attemptIdxs.length, r.exit⟩
  | .exhausted e =>
    ⟨(row.setField resultKey (.str ("ERROR: " ++ e))).setField "eval.valid" (.bool false),
      0, 0, r.attemptIdxs.length, r.exit⟩
  | .skipped => ⟨row, 0, 0, r.attemptIdxs.length, r.exit⟩

/-- `Math.round((completed / Math.max(1, totalCount)) * 100)`, computed
exactly (half-up rounding of the rational, as a natural division). -/
def progressAt (completed total : Nat) : Nat :=
  (200 * completed + max 1 total) / (2 * max 1 total)

/-- The displayed progress (source line 381):
`Math.max(0, Math.min(100, progress))`. -/
def progressValue (p : Nat) : Nat := max 0 (min 100 p)

/-- The externally visible outcome of one `handleStart` run. -/
structure BatchOutcome where
  rows : List JObj
  status : String
  message : String
  completed : Nat
  progressHistory : List Nat
  promptTokens : Nat
  completionTokens : Nat
  deriving DecidableEq

/-- All task results, one per record index; `req i` and `cancel i` are
the oracle and observed cancellation sequence of record `i`'s task
(tasks are independent up to these observations, so the final state
does not depend on the interleaving). -/
def taskResults (maxRetries : Nat) (rows : List JObj)
    (req : Nat → Nat → ReqOutcome) (cancel : Nat → Nat → Bool)
    (resultKey : String) : List TaskResult :=
  rows.enum.map fun p => runTask maxRetries (cancel p.1) (req p.1) p.2 resultKey

/-- The `completed++; setProgress(...)` accounting, folded over the
settling tasks (source lines 335-336): the completed count and the
sequence of progress values reported after each settlement. -/
def settleFold (total : Nat) (ts : List TaskResult) : Nat × List Nat :=
  ts.foldl (fun acc _ => (acc.1 + 1, acc.2 ++ [progressAt (acc.1 + 1) total]))
    (0, [])

/-- Model of `handleStart` (source lines 270-349) after its
configuration guards: run all tasks, fold the progress accounting, and
take the final branch on the cancellation flag (source lines 339-348).
`cancelAtEnd` is the flag's value at that final read; in the paused
branch the visible `rows` state is left untouched and the `costInfo`
update is skipped (the done-branch message's cost suffix is omitted
here).  -/
def handleStart (maxRetries : Nat) (rows : List JObj)
    (req : Nat → Nat → ReqOutcome) (cancel : Nat → Nat → Bool)
    (cancelAtEnd : Bool) (resultKey : String) : BatchOutcome :=
  let ts := taskResults maxRetries rows req cancel resultKey
  let settled := settleFold rows.length ts
  let promptTokens := (ts.map TaskResult.promptToks).sum
  let completionTokens := (ts.map TaskResult.completionToks).sum
  if cancelAtEnd then
    { rows := rows, status := "paused", message := "Paused.",
      completed := settled.1, progressHistory := settled.2,
      promptTokens, completionTokens }
  else
    { rows := ts.map TaskResult.row, status := "done",
      message := "Done: processed " ++ toString rows.length ++ " rows.",
      completed := settled.1, progressHistory := settled.2,
      promptTokens, completionTokens }

/-- The cancellation flag as a function of time: `handlePause` (source
line 351) only ever sets it, and nothing clears it during a run, so its
history is determined by the instant `pauseAt` of the first pause
signal (if any). -/
def cancelSchedule (pauseAt : Option Nat) : Nat → Bool :=
  fun t =>
    match pauseAt with
    | none => false
    | some t0 => t0 ≤ t

/-- A fenced code block: three backticks, a language tag, a newline,
the body, a newline, three backticks. -/
def fenceWrap (lang : List Char) (body : List Char) : List Char :=
  "```".data ++ lang ++ '\n' :: body ++ '\n' :: "```".data

/-! ### Sizes for the parser's fuel accounting -/

mutual
/-- Fuel cost bound for parsing one value. -/
def JVal.jsize : JVal → Nat
  | .null => 1
  | .bool _ => 1
  | .num _ => 1
  | .str _ => 1
  | .arr a => a.jsizeItems + 1
  | .obj o => o.jsizeFields + 1
/-- Fuel cost bound for parsing an item list. -/
def JArr.jsizeItems : JArr → Nat
  | .nil => 1
  | .cons v t => v.jsize + t.jsizeItems + 1
/-- Fuel cost bound for parsing a field list. -/
def JObj.jsizeFields : JObj → Nat
  | .nil => 1
  | .cons _ v t => v.jsize + t.jsizeFields + 1
end

/-- The backtick character (code point 96). -/
def tickChar : Char := Char.ofNat 96

/-- Number of submissions currently in a given phase. -/
def countPhase (p : LimPhase) : List LimPhase → Nat
  | [] => 0
  | a :: t => (if a = p then 1 else 0) + countPhase p t

/-- The limiter's inductive invariant: `running` counts the active
submissions, active-plus-woken submissions stay within the limit, the
queue holds exactly the queued submissions with no duplicates, and the
wakeup log is a prefix of the arrival log with the current queue as the
remainder (waiters are released in strict arrival order). -/
def LimInv (limit : Nat) (s : LimState) : Prop :=
  s.limit = limit ∧
  s.running = countPhase .active s.phases ∧
  s.running + countPhase .woken s.phases ≤ limit ∧
  (∀ j ∈ s.queue, s.phases[j]? = some LimPhase.queued) ∧
  s.queue.Nodup ∧
  s.queuedLog = s.wokenLog ++ s.queue

/-! ## Lemmas and theorems -/

/-! ### Object field lemmas -/

theorem JObj.getField_setField_self :
    ∀ (o : JObj) (k : String) (v : JVal),
      (o.setField k v).getField k = some v
  | .nil, k, v => by simp [JObj.setField, JObj.getField]
  | .cons k' v' t, k, v => by
    by_cases h : k' = k
    · simp [JObj.setField, JObj.getField, h]
    · simp [JObj.setField, JObj.getField, h,
        JObj.getField_setField_self t k v]

theorem JObj.getField_setField_ne :
    ∀ (o : JObj) (k k' : String) (v : JVal), k' ≠ k →
      (o.setField k v).getField k' = o.getField k'
  | .nil, k, k', v, h => by
    simp [JObj.setField, JObj.getField, Ne.symm h]
  | .cons k0 v0 t, k, k', v, h => by
    by_cases h0 : k0 = k
    · subst h0
      simp [JObj.setField, JObj.getField, Ne.symm h]
    · simp only [JObj.setField, if_neg h0]
      by_cases h1 : k0 = k'
      · simp [JObj.getField, h1]
      · simp [JObj.getField, h1, JObj.getField_setField_ne t k k' v h]

/-! ### Attempt-loop lemmas -/

theorem attemptLoopCore_allFail (maxRetries : Nat) (req : Nat → ReqOutcome)
    (e : Nat → String) (hfail : ∀ a, req a = .fail (e a)) :
    ∀ fuel a, a ≤ maxRetries → maxRetries + 1 - a ≤ fuel →
      attemptLoopCore maxRetries (fun _ => false) req fuel a =
        ⟨.exhausted (e maxRetries), List.range' a (maxRetries + 1 - a)⟩ := by
  intro fuel
  induction fuel with
  | zero => intro a ha hf; omega
  | succ fuel ih =>
    intro a ha hf
    unfold attemptLoopCore
    split
    · rw [hfail a]
      by_cases hlast : maxRetries < a + 1
      · have haeq : maxRetries = a := by omega
        subst haeq
        have h1 : maxRetries + 1 - maxRetries = 1 := by omega
        simp [hlast, h1, List.range'_one]
      · have ha1 : a + 1 ≤ maxRetries := by omega
        have hf1 : maxRetries + 1 - (a + 1) ≤ fuel := by omega
        have hn : maxRetries + 1 - a = (maxRetries + 1 - (a + 1)) + 1 := by omega
        simp only [hlast, if_false, ih (a + 1) ha1 hf1]
        rw [hn, List.range'_succ]
    · next hcond =>
      exact absurd (by simp [ha]) hcond

theorem attemptLoop_allFail (maxRetries : Nat) (req : Nat → ReqOutcome)
    (e : Nat → String) (hfail : ∀ a, req a = .fail (e a)) :
    attemptLoop maxRetries (fun _ => false) req =
      ⟨.exhausted (e maxRetries), List.range (maxRetries + 1)⟩ := by
  unfold attemptLoop
  rw [attemptLoopCore_allFail maxRetries req e hfail (maxRetries + 1) 0
    (by omega) (by omega)]
  simp [List.range_eq_range']

theorem attemptLoopCore_attempt_not_cancelled (maxRetries : Nat)
    (cancel : Nat → Bool) (req : Nat → ReqOutcome) :
    ∀ fuel a0 a, a ∈ (attemptLoopCore maxRetries cancel req fuel a0).attemptIdxs →
      cancel a = false := by
  intro fuel
  induction fuel with
  | zero => intro a0 a h; simp [attemptLoopCore] at h
  | succ fuel ih =>
    intro a0 a h
    unfold attemptLoopCore at h
    split at h
    · next hc =>
      have hcancel : cancel a0 = false := by
        rcases Bool.and_eq_true_iff.mp hc with ⟨_, h2⟩
        simpa using h2
      cases hreq : req a0 with
      | ok content pt ct =>
        rw [hreq] at h
        simp at h
        simpa [h] using hcancel
      | fail msg =>
        rw [hreq] at h
        simp only at h
        split at h
        · simp at h
          simpa [h] using hcancel
        · simp at h
          rcases h with h | h
          · simpa [h] using hcancel
          · exact ih (a0 + 1) a h
    · simp at h

/-! ### Progress lemmas -/

theorem progressAt_mono (t : Nat) {c c' : Nat} (h : c ≤ c') :
    progressAt c t ≤ progressAt c' t := by
  unfold progressAt
  exact Nat.div_le_div_right (by omega)

theorem progressAt_total (t : Nat) : progressAt t t = if t = 0 then 0 else 100 := by
  unfold progressAt
  by_cases h : t = 0
  · subst h; simp
  · have h1 : max 1 t = t := by omega
    rw [h1, if_neg h]
    have h2 : 200 * t + t = t + 2 * t * 100 := by ring
    rw [h2, Nat.add_mul_div_left _ _ (show 0 < 2 * t by omega),
      Nat.div_eq_of_lt (by omega)]

theorem progressAt_le_100 {c t : Nat} (h : c ≤ t) : progressAt c t ≤ 100 := by
  have h1 := progressAt_mono t h
  rw [progressAt_total t] at h1
  by_cases h0 : t = 0
  · subst h0; simp at h1; omega
  · rw [if_neg h0] at h1; exact h1

theorem progressAt_eq_round (c t : Nat) :
    (progressAt c t : ℚ) = ⌊(100 * (c : ℚ)) / (max 1 t : Nat) + 1 / 2⌋₊ := by
  have hm : (0 : ℚ) < ((max 1 t : Nat) : ℚ) := by
    have : 1 ≤ max 1 t := by omega
    exact_mod_cast Nat.lt_of_lt_of_le Nat.zero_lt_one this
  have key : (100 * (c : ℚ)) / (max 1 t : Nat) + 1 / 2 =
      ((200 * c + max 1 t : Nat) : ℚ) / ((2 * max 1 t : Nat) : ℚ) := by
    push_cast
    field_simp
    ring
  rw [key]
  have := Nat.floor_div_nat ((200 * c + max 1 t : Nat) : ℚ) (2 * max 1 t)
  rw [this, Nat.floor_natCast]
  unfold progressAt
  norm_num

theorem settleFoldAux (t : Nat) :
    ∀ (ts : List TaskResult) (c : Nat) (h : List Nat),
      ts.foldl (fun acc _ => (acc.1 + 1, acc.2 ++ [progressAt (acc.1 + 1) t])) (c, h) =
        (c + ts.length,
          h ++ (List.range ts.length).map (fun k => progressAt (c + k + 1) t)) := by
  intro ts
  induction ts with
  | nil => intro c h; simp
  | cons x ts ih =>
    intro c h
    simp only [List.foldl_cons, ih (c + 1) (h ++ [progressAt (c + 1) t]),
      List.length_cons, Prod.mk.injEq]
    refine ⟨by omega, ?_⟩
    rw [List.append_assoc]
    congr 1
    rw [List.range_succ_eq_map]
    simp only [List.map_cons, List.map_map, List.singleton_append]
    congr 1
    refine List.map_congr_left ?_
    intro k _
    show progressAt (c + 1 + k + 1) t = progressAt (c + (k + 1) + 1) t
    congr 1
    omega

theorem settleFold_eq (t : Nat) (ts : List TaskResult) :
    settleFold t ts =
      (ts.length, (List.range ts.length).map (fun k => progressAt (k + 1) t)) := by
  unfold settleFold
  rw [settleFoldAux t ts 0 []]
  simp

theorem taskResults_length (maxRetries : Nat) (rows : List JObj)
    (req : Nat → Nat → ReqOutcome) (cancel : Nat → Nat → Bool) (rk : String) :
    (taskResults maxRetries rows req cancel rk).length = rows.length := by
  simp [taskResults]

theorem taskResults_getElem (maxRetries : Nat) (rows : List JObj)
    (req : Nat → Nat → ReqOutcome) (cancel : Nat → Nat → Bool) (rk : String)
    (i : Nat) (hi : i < rows.length) :
    (taskResults maxRetries rows req cancel rk)[i]? =
      some (runTask maxRetries (cancel i) (req i) rows[i] rk) := by
  unfold taskResults
  rw [List.getElem?_map, List.getElem?_enum]
  simp [List.getElem?_eq_getElem hi]

theorem handleStart_completed (maxRetries : Nat) (rows : List JObj)
    (req : Nat → Nat → ReqOutcome) (cancel : Nat → Nat → Bool)
    (cancelAtEnd : Bool) (rk : String) :
    (handleStart maxRetries rows req cancel cancelAtEnd rk).completed =
      rows.length := by
  unfold handleStart
  cases cancelAtEnd <;>
    simp [settleFold_eq, taskResults_length]

theorem handleStart_progressHistory (maxRetries : Nat) (rows : List JObj)
    (req : Nat → Nat → ReqOutcome) (cancel : Nat → Nat → Bool)
    (cancelAtEnd : Bool) (rk : String) :
    (handleStart maxRetries rows req cancel cancelAtEnd rk).progressHistory =
      (List.range rows.length).map (fun k => progressAt (k + 1) rows.length) := by
  unfold handleStart
  cases cancelAtEnd <;>
    simp [settleFold_eq, taskResults_length]

theorem handleStart_rows_done (maxRetries : Nat) (rows : List JObj)
    (req : Nat → Nat → ReqOutcome) (cancel : Nat → Nat → Bool) (rk : String) :
    (handleStart maxRetries rows req cancel false rk).rows =
      (taskResults maxRetries rows req cancel rk).map TaskResult.row := by
  unfold handleStart
  simp

theorem handleStart_getLast_100 (maxRetries : Nat) (rows : List JObj)
    (req : Nat → Nat → ReqOutcome) (cancel : Nat → Nat → Bool)
    (cancelAtEnd : Bool) (rk : String) (h : rows ≠ []) :
    (handleStart maxRetries rows req cancel cancelAtEnd rk).progressHistory.getLast? =
      some 100 := by
  rw [handleStart_progressHistory]
  obtain ⟨m, hm⟩ : ∃ m, rows.length = m + 1 :=
    ⟨rows.length - 1, by cases rows <;> simp_all⟩
  rw [hm, List.range_succ, List.map_append]
  simp only [List.map_cons, List.map_nil, List.getLast?_concat]
  rw [show progressAt (m + 1) (m + 1) = 100 from by
    rw [progressAt_total]; simp]

/-- Claim C9: `estimateOpenAIPrice` computes cost from the per-model
price table as `promptTokens/1000 × input price` plus
`completionTokens/1000 × output price` (input and output priced
independently); for `gpt-4o-mini` with 2000 prompt and 3000 completion
tokens at $0.15/$0.60 per 1000 tokens the total is exactly $2.10; and
every model absent from the table uses the default `gpt-4o-mini`
pricing.  (JS float arithmetic is modelled exactly over `ℚ`.) -/
theorem estimateOpenAIPrice_c9 :
    (estimateOpenAIPrice "gpt-4o-mini" 2000 3000).totalUSD = 21 / 10 ∧
    (∀ (model : String) (pt ct : ℚ), pricePer1k.lookup model = none →
      estimateOpenAIPrice model pt ct = estimateOpenAIPrice "gpt-4o-mini" pt ct) ∧
    (∀ (model : String) (inP outP pt ct : ℚ),
      pricePer1k.lookup model = some (inP, outP) →
      (estimateOpenAIPrice model pt ct).promptUSD = pt / 1000 * inP ∧
      (estimateOpenAIPrice model pt ct).completionUSD = ct / 1000 * outP ∧
      (estimateOpenAIPrice model pt ct).totalUSD =
        pt / 1000 * inP + ct / 1000 * outP) := by
  have hmini : pricePer1k.lookup "gpt-4o-mini" = some ((0.15 : ℚ), (0.6 : ℚ)) := rfl
  refine ⟨?_, ?_, ?_⟩
  · unfold estimateOpenAIPrice
    rw [hmini]
    norm_num
  · intro model pt ct h
    unfold estimateOpenAIPrice
    rw [h]
    rfl
  · intro model inP outP pt ct h
    unfold estimateOpenAIPrice
    rw [h]
    exact ⟨rfl, rfl, rfl⟩

theorem estimateOpenAIPrice_c9_witness :
    estimateOpenAIPrice "gpt-5" 100 200 = estimateOpenAIPrice "gpt-4o-mini" 100 200 ∧
    (estimateOpenAIPrice "gpt-4o" 1000 2000).totalUSD =
      1000 / 1000 * 2.5 + 2000 / 1000 * 10 :=
  ⟨estimateOpenAIPrice_c9.2.1 "gpt-5" 100 200 rfl,
   (estimateOpenAIPrice_c9.2.2 "gpt-4o" 2.5 10 1000 2000 rfl).2.2⟩

/-- Claim C2: for every record whose request always fails and with
cancellation never signaled, the per-record attempt loop performs
exactly `maxRetries + 1` request attempts, then produces a Result for
that index marked invalid (`eval.valid = false`) whose output field
carries a synthetic error message, and the other records continue to be
processed independently.  (`rk ≠ "eval.valid"` rules out the degenerate
result-column name under which the later `eval.valid` write would
overwrite the error text, in the source exactly as here.) -/
theorem handleStart_c2 (maxRetries : Nat) (rows : List JObj)
    (req : Nat → Nat → ReqOutcome) (rk : String) (i : Nat)
    (hi : i < rows.length) (e : Nat → String)
    (hfail : ∀ a, req i a = .fail (e a)) (hrk : rk ≠ "eval.valid") :
    (taskResults maxRetries rows req (fun _ _ => false) rk)[i]?.map
        TaskResult.requests = some (maxRetries + 1) ∧
    ((handleStart maxRetries rows req (fun _ _ => false) false rk).rows[i]?.bind
        (fun r => r.getField "eval.valid")) = some (.bool false) ∧
    ((handleStart maxRetries rows req (fun _ _ => false) false rk).rows[i]?.bind
        (fun r => r.getField rk)) = some (.str ("ERROR: " ++ e maxRetries)) ∧
    (∀ j (hj : j < rows.length), j ≠ i →
      (handleStart maxRetries rows req (fun _ _ => false) false rk).rows[j]? =
        some ((runTask maxRetries (fun _ => false) (req j)
          (rows.get ⟨j, hj⟩) rk).row)) := by
  have htask : runTask maxRetries (fun _ => false) (req i) rows[i] rk =
      ⟨((rows[i].setField rk (.str ("ERROR: " ++ e maxRetries))).setField
          "eval.valid" (.bool false)), 0, 0, maxRetries + 1, .exhausted (e maxRetries)⟩ := by
    unfold runTask
    rw [attemptLoop_allFail maxRetries (req i) e hfail]
    simp
  refine ⟨?_, ?_, ?_, ?_⟩
  · rw [taskResults_getElem maxRetries rows req (fun _ _ => false) rk i hi, htask]
    rfl
  · rw [handleStart_rows_done, List.getElem?_map,
      taskResults_getElem maxRetries rows req (fun _ _ => false) rk i hi, htask]
    simp [JObj.getField_setField_self]
  · rw [handleStart_rows_done, List.getElem?_map,
      taskResults_getElem maxRetries rows req (fun _ _ => false) rk i hi, htask]
    simp [JObj.getField_setField_ne _ _ _ _ hrk, JObj.getField_setField_self]
  · intro j hj hne
    rw [handleStart_rows_done, List.getElem?_map,
      taskResults_getElem maxRetries rows req (fun _ _ => false) rk j hj]
    rfl

theorem handleStart_c2_witness :
    (taskResults 2 [JObj.nil, JObj.nil] (fun _ _ => .fail "boom")
        (fun _ _ => false) "evaluation")[0]?.map TaskResult.requests = some 3 ∧
    ((handleStart 2 [JObj.nil, JObj.nil] (fun _ _ => .fail "boom")
        (fun _ _ => false) false "evaluation").rows[0]?.bind
        (fun r => r.getField "evaluation")) = some (.str "ERROR: boom") :=
  ⟨(handleStart_c2 2 [JObj.nil, JObj.nil] (fun _ _ => .fail "boom") "evaluation"
      0 (by simp) (fun _ => "boom") (fun _ => rfl) (by simp)).1,
   (handleStart_c2 2 [JObj.nil, JObj.nil] (fun _ _ => .fail "boom") "evaluation"
      0 (by simp) (fun _ => "boom") (fun _ => rfl) (by simp)).2.2.1⟩

/-- Claim C3, counterexample: the claim asserts that Results completed
before cancellation remain in place in the externally visible row
sequence.  In the source, the paused branch (lines 345-348) never calls
`setRows(updatedRows)`, so a Result that a task did produce (here task
0, which succeeded) is absent from the visible rows: the batch reports
"paused" but `rows[0]` has no `evaluation` field. -/
theorem handleStart_c3_counterexample :
    ((taskResults 0 [JObj.cons "a" (.str "x") .nil, JObj.cons "a" (.str "y") .nil]
        (fun _ _ => .ok "hello" 1 2) (fun i _ => decide (1 ≤ i))
        "evaluation")[0]?.map TaskResult.exit = some (.succeeded "hello" 1 2)) ∧
    (handleStart 0 [JObj.cons "a" (.str "x") .nil, JObj.cons "a" (.str "y") .nil]
        (fun _ _ => .ok "hello" 1 2) (fun i _ => decide (1 ≤ i)) true
        "evaluation").status = "paused" ∧
    ((handleStart 0 [JObj.cons "a" (.str "x") .nil, JObj.cons "a" (.str "y") .nil]
        (fun _ _ => .ok "hello" 1 2) (fun i _ => decide (1 ≤ i)) true
        "evaluation").rows[0]?.bind (fun r => r.getField "evaluation")) = none := by
  refine ⟨?_, ?_, ?_⟩ <;> rfl

/-- Claim C3 (amended): if the cancellation flag is set while a batch
is running, then after all admitted tasks settle the batch reports the
"paused" outcome (status "paused", message "Paused."), every task still
settles (the completed count reaches the row count), and the externally
visible row sequence remains entirely the original, unprocessed Records
— Results that completed before cancellation are discarded from the
visible sequence (they live only in the local `updatedRows` buffer,
which the paused branch never publishes). -/
theorem handleStart_c3_amended (maxRetries : Nat) (rows : List JObj)
    (req : Nat → Nat → ReqOutcome) (cancel : Nat → Nat → Bool) (rk : String) :
    (handleStart maxRetries rows req cancel true rk).status = "paused" ∧
    (handleStart maxRetries rows req cancel true rk).message = "Paused." ∧
    (handleStart maxRetries rows req cancel true rk).rows = rows ∧
    (handleStart maxRetries rows req cancel true rk).completed = rows.length := by
  exact ⟨rfl, rfl, rfl, handleStart_completed maxRetries rows req cancel true rk⟩

/-- Claim C4: once the cancellation flag is set it stays set for the
rest of the run (the flag history `cancelSchedule` is monotone); no
request attempt is ever started at an instant where the observed flag
is true (neither a first attempt nor a retry); and the batch settles
only after every admitted task reaches a terminal state (the completed
count always reaches the full row count, whatever the cancellation
observations). -/
theorem cancellation_c4 (pauseAt : Option Nat) (maxRetries : Nat)
    (cancel : Nat → Bool) (req : Nat → ReqOutcome) (rows : List JObj)
    (reqs : Nat → Nat → ReqOutcome) (cancels : Nat → Nat → Bool)
    (cancelAtEnd : Bool) (rk : String) :
    (∀ t t', t ≤ t' → cancelSchedule pauseAt t = true →
      cancelSchedule pauseAt t' = true) ∧
    (∀ a, a ∈ (attemptLoop maxRetries cancel req).attemptIdxs →
      cancel a = false) ∧
    (handleStart maxRetries rows reqs cancels cancelAtEnd rk).completed =
      rows.length := by
  refine ⟨?_, ?_, handleStart_completed maxRetries rows reqs cancels cancelAtEnd rk⟩
  · intro t t' h hc
    unfold cancelSchedule at hc ⊢
    cases pauseAt with
    | none => simp at hc
    | some t0 =>
      simp only [decide_eq_true_eq] at hc ⊢
      omega
  · intro a h
    exact attemptLoopCore_attempt_not_cancelled maxRetries cancel req
      (maxRetries + 1) 0 a h

theorem cancellation_c4_witness :
    cancelSchedule (some 2) 5 = true ∧
    (handleStart 1 [JObj.nil] (fun _ _ => .fail "x") (fun _ _ => true) true
      "evaluation").completed = 1 :=
  ⟨(cancellation_c4 (some 2) 1 (fun _ => false) (fun _ => .fail "x") [JObj.nil]
      (fun _ _ => .fail "x") (fun _ _ => true) true "evaluation").1 2 5
      (by omega) (by decide),
   (cancellation_c4 (some 2) 1 (fun _ => false) (fun _ => .fail "x") [JObj.nil]
      (fun _ _ => .fail "x") (fun _ _ => true) true "evaluation").2.2⟩

/-- Claim C8: the reported progress sequence is exactly
`round(completed / max(1,total) × 100)` as the completed counter steps
through `1..total` (`progressAt` is the exact half-up rounding of
`100·c/max(1,t)`); it is non-decreasing; every reported value is a
fixed point of the `[0,100]` clamp (hence within bounds); and when the
batch is not paused it ends with status "done" and progress exactly
100. -/
theorem progress_c8 (maxRetries : Nat) (rows : List JObj)
    (req : Nat → Nat → ReqOutcome) (cancel : Nat → Nat → Bool)
    (cancelAtEnd : Bool) (rk : String) :
    (handleStart maxRetries rows req cancel cancelAtEnd rk).progressHistory =
      (List.range rows.length).map (fun k => progressAt (k + 1) rows.length) ∧
    (∀ c t : Nat, (progressAt c t : ℚ) =
      ⌊(100 * (c : ℚ)) / (max 1 t : Nat) + 1 / 2⌋₊) ∧
    List.Chain' (· ≤ ·)
      (handleStart maxRetries rows req cancel cancelAtEnd rk).progressHistory ∧
    (∀ p ∈ (handleStart maxRetries rows req cancel cancelAtEnd rk).progressHistory,
      progressValue p = p ∧ p ≤ 100) ∧
    (rows ≠ [] → cancelAtEnd = false →
      (handleStart maxRetries rows req cancel cancelAtEnd rk).status = "done" ∧
      (handleStart maxRetries rows req cancel cancelAtEnd
        rk).progressHistory.getLast? = some 100) := by
  refine ⟨handleStart_progressHistory maxRetries rows req cancel cancelAtEnd rk,
    progressAt_eq_round, ?_, ?_, ?_⟩
  · rw [handleStart_progressHistory]
    rw [List.chain'_iff_get]
    intro k hk
    simp only [List.length_map, List.length_range] at hk
    simp only [List.get_eq_getElem, List.getElem_map, List.getElem_range]
    exact progressAt_mono rows.length (by omega)
  · intro p hp
    rw [handleStart_progressHistory] at hp
    simp only [List.mem_map, List.mem_range] at hp
    obtain ⟨k, hk, rfl⟩ := hp
    have h100 : progressAt (k + 1) rows.length ≤ 100 :=
      progressAt_le_100 (by omega)
    constructor
    · unfold progressValue; omega
    · exact h100
  · intro hne hce
    subst hce
    exact ⟨rfl, handleStart_getLast_100 maxRetries rows req cancel false rk hne⟩

theorem progress_c8_witness :
    (handleStart 0 [JObj.nil] (fun _ _ => .fail "x") (fun _ _ => false) false
      "evaluation").status = "done" ∧
    (handleStart 0 [JObj.nil] (fun _ _ => .fail "x") (fun _ _ => false) false
      "evaluation").progressHistory.getLast? = some 100 :=
  (progress_c8 0 [JObj.nil] (fun _ _ => .fail "x") (fun _ _ => false) false
    "evaluation").2.2.2.2 (by simp) rfl

/-- Claim C10: every task submitted to the orchestrator increments the
completed counter when it settles — including tasks whose attempt loop
was skipped entirely because the cancellation flag was already set — so
once all tasks settle the completed count equals the row count and the
reported progress equals 100 even when the batch ends in the "paused"
state. -/
theorem handleStart_c10 (maxRetries : Nat) (rows : List JObj)
    (req : Nat → Nat → ReqOutcome) (cancel : Nat → Nat → Bool)
    (cancelAtEnd : Bool) (rk : String) :
    (handleStart maxRetries rows req cancel cancelAtEnd rk).completed =
      rows.length ∧
    (rows ≠ [] →
      (handleStart maxRetries rows req cancel true rk).progressHistory.getLast? =
        some 100 ∧
      (handleStart maxRetries rows req cancel true rk).status = "paused") := by
  refine ⟨handleStart_completed maxRetries rows req cancel cancelAtEnd rk, ?_⟩
  intro hne
  exact ⟨handleStart_getLast_100 maxRetries rows req cancel true rk hne, rfl⟩

theorem handleStart_c10_witness :
    (handleStart 0 [JObj.nil] (fun _ _ => .ok "y" 0 0) (fun _ _ => true) true
      "evaluation").progressHistory.getLast? = some 100 ∧
    (handleStart 0 [JObj.nil] (fun _ _ => .ok "y" 0 0) (fun _ _ => true) true
      "evaluation").status = "paused" :=
  (handleStart_c10 0 [JObj.nil] (fun _ _ => .ok "y" 0 0) (fun _ _ => true) true
    "evaluation").2 (by simp)

/-! ### Template renderer lemmas -/

theorem renderTemplateCore_nil (row : JObj) (fuel : Nat) :
    renderTemplateCore row fuel [] = [] := by
  cases fuel <;> rfl

theorem takeWhile_length_le_self (p : Char → Bool) (l : List Char) :
    (l.takeWhile p).length ≤ l.length := by
  induction l with
  | nil => simp
  | cons c t ih =>
    rw [List.takeWhile_cons]
    split
    · simp only [List.length_cons]; omega
    · simp

theorem tmplMatch_rest_le {t body rest : List Char}
    (h : tmplMatch t = some (body, rest)) : rest.length + 2 ≤ t.length := by
  unfold tmplMatch at h
  split at h
  · next heq =>
    split at h
    · exact absurd h (by simp)
    · simp only [Option.some.injEq, Prod.mk.injEq] at h
      have hl := congrArg List.length heq
      simp only [List.length_drop, List.length_cons] at hl
      have hk := takeWhile_length_le_self (fun c => c ≠ '\x7d') t
      obtain ⟨h1, h2⟩ := h
      subst h2
      omega
  · exact absurd h (by simp)

theorem findPlaceholder_some_length :
    ∀ (s pre body rest : List Char),
      findPlaceholder s = some (pre, body, rest) →
      pre.length + rest.length + 2 ≤ s.length := by
  intro s
  induction s with
  | nil => intro pre body rest h; simp [findPlaceholder] at h
  | cons c t ih =>
    intro pre body rest h
    unfold findPlaceholder at h
    by_cases hc : c = '\x7b'
    · rw [if_pos hc] at h
      cases t with
      | nil => simp at h
      | cons c2 t2 =>
        simp only at h
        by_cases hc2 : c2 = '\x7b'
        · rw [if_pos hc2] at h
          cases htm : tmplMatch t2 with
          | some p =>
            rw [htm] at h
            simp only [Option.some.injEq, Prod.mk.injEq] at h
            obtain ⟨h1, h2, h3⟩ := h
            subst h1; subst h3
            have := tmplMatch_rest_le htm
            simp only [List.length_nil, List.length_cons]
            omega
          | none =>
            rw [htm] at h
            cases hfp : findPlaceholder (c2 :: t2) with
            | none => rw [hfp] at h; simp at h
            | some q =>
              rw [hfp] at h
              simp only [Option.map_some', Option.some.injEq, Prod.mk.injEq] at h
              obtain ⟨rfl, rfl, rfl⟩ := h
              have := ih q.1 q.2.1 q.2.2 hfp
              simp only [List.length_cons] at this ⊢
              omega
        · rw [if_neg hc2] at h
          cases hfp : findPlaceholder (c2 :: t2) with
          | none => rw [hfp] at h; simp at h
          | some q =>
            rw [hfp] at h
            simp only [Option.map_some', Option.some.injEq, Prod.mk.injEq] at h
            obtain ⟨rfl, rfl, rfl⟩ := h
            have := ih q.1 q.2.1 q.2.2 hfp
            simp only [List.length_cons] at this ⊢
            omega
    · rw [if_neg hc] at h
      cases hfp : findPlaceholder t with
      | none => rw [hfp] at h; simp at h
      | some q =>
        rw [hfp] at h
        simp only [Option.map_some', Option.some.injEq, Prod.mk.injEq] at h
        obtain ⟨rfl, rfl, rfl⟩ := h
        have := ih q.1 q.2.1 q.2.2 hfp
        simp only [List.length_cons] at this ⊢
        omega

theorem renderTemplateCore_cons_cons (row : JObj) (fuel : Nat) (c c2 : Char)
    (t2 : List Char) :
    renderTemplateCore row (fuel + 1) (c :: c2 :: t2) =
      if c = '\x7b' then
        if c2 = '\x7b' then
          match tmplMatch t2 with
          | some (body, rest) =>
            tmplReplacement row body ++ renderTemplateCore row fuel rest
          | none => c :: renderTemplateCore row fuel (c2 :: t2)
        else c :: renderTemplateCore row fuel (c2 :: t2)
      else c :: renderTemplateCore row fuel (c2 :: t2) := rfl

theorem renderTemplateCore_single (row : JObj) (fuel : Nat) (c : Char) :
    renderTemplateCore row (fuel + 1) [c] = [c] := by
  have h : renderTemplateCore row (fuel + 1) [c] =
      if c = '\x7b' then c :: renderTemplateCore row fuel []
      else c :: renderTemplateCore row fuel [] := rfl
  rw [h, renderTemplateCore_nil]
  split <;> rfl

theorem renderTemplateCore_fp_none (row : JObj) :
    ∀ fuel s, s.length < fuel → findPlaceholder s = none →
      renderTemplateCore row fuel s = s := by
  intro fuel
  induction fuel with
  | zero => intro s hs _; omega
  | succ fuel ih =>
    intro s hs hfp
    cases s with
    | nil => exact renderTemplateCore_nil row _
    | cons c t =>
      unfold findPlaceholder at hfp
      simp only [List.length_cons] at hs
      cases t with
      | nil => exact renderTemplateCore_single row fuel c
      | cons c2 t2 =>
        simp only [List.length_cons] at hs
        by_cases hc : c = '\x7b'
        · rw [if_pos hc] at hfp
          simp only at hfp
          by_cases hc2 : c2 = '\x7b'
          · rw [if_pos hc2] at hfp
            cases htm : tmplMatch t2 with
            | some p => rw [htm] at hfp; simp at hfp
            | none =>
              rw [htm] at hfp
              simp only [Option.map_eq_none'] at hfp
              simp only [renderTemplateCore_cons_cons, if_pos hc, if_pos hc2,
                htm, ih (c2 :: t2) (by simp; omega) hfp]
          · rw [if_neg hc2] at hfp
            simp only [Option.map_eq_none'] at hfp
            simp only [renderTemplateCore_cons_cons, if_pos hc, if_neg hc2,
              ih (c2 :: t2) (by simp; omega) hfp]
        · rw [if_neg hc] at hfp
          simp only [Option.map_eq_none'] at hfp
          simp only [renderTemplateCore_cons_cons, if_neg hc,
            ih (c2 :: t2) (by simp; omega) hfp]

theorem renderTemplateCore_fp_some (row : JObj) :
    ∀ fuel s pre body rest, s.length < fuel →
      findPlaceholder s = some (pre, body, rest) →
      renderTemplateCore row fuel s =
        pre ++ tmplReplacement row body ++
          renderTemplateCore row (fuel - 1 - pre.length) rest := by
  intro fuel
  induction fuel with
  | zero => intro s pre body rest hs _; omega
  | succ fuel ih =>
    intro s pre body rest hs hfp
    cases s with
    | nil => simp [findPlaceholder] at hfp
    | cons c t =>
      unfold findPlaceholder at hfp
      simp only [List.length_cons] at hs
      cases t with
      | nil =>
        by_cases hc : c = '\x7b'
        · rw [if_pos hc] at hfp; simp [findPlaceholder] at hfp
        · rw [if_neg hc] at hfp; simp [findPlaceholder] at hfp
      | cons c2 t2 =>
        simp only [List.length_cons] at hs
        by_cases hc : c = '\x7b'
        · rw [if_pos hc] at hfp
          simp only at hfp
          by_cases hc2 : c2 = '\x7b'
          · rw [if_pos hc2] at hfp
            cases htm : tmplMatch t2 with
            | some p =>
              rw [htm] at hfp
              simp only [Option.some.injEq, Prod.mk.injEq] at hfp
              obtain ⟨h1, h2, h3⟩ := hfp
              subst h1; subst h2; subst h3
              simp only [renderTemplateCore_cons_cons, if_pos hc, if_pos hc2,
                htm, List.nil_append, List.length_nil]
              rw [show fuel + 1 - 1 - 0 = fuel from by omega]
            | none =>
              rw [htm] at hfp
              cases hfp2 : findPlaceholder (c2 :: t2) with
              | none => rw [hfp2] at hfp; simp at hfp
              | some q =>
                rw [hfp2] at hfp
                simp only [Option.map_some', Option.some.injEq,
                  Prod.mk.injEq] at hfp
                obtain ⟨rfl, rfl, rfl⟩ := hfp
                simp only [renderTemplateCore_cons_cons, if_pos hc, if_pos hc2,
                  htm, ih (c2 :: t2) q.1 q.2.1 q.2.2 (by simp; omega) hfp2,
                  List.length_cons, List.cons_append, List.append_assoc]
                have harith : fuel - 1 - q.1.length =
                    fuel + 1 - 1 - (q.1.length + 1) := by omega
                rw [harith]
          · rw [if_neg hc2] at hfp
            cases hfp2 : findPlaceholder (c2 :: t2) with
            | none => rw [hfp2] at hfp; simp at hfp
            | some q =>
              rw [hfp2] at hfp
              simp only [Option.map_some', Option.some.injEq,
                Prod.mk.injEq] at hfp
              obtain ⟨rfl, rfl, rfl⟩ := hfp
              simp only [renderTemplateCore_cons_cons, if_pos hc, if_neg hc2,
                ih (c2 :: t2) q.1 q.2.1 q.2.2 (by simp; omega) hfp2,
                List.length_cons, List.cons_append, List.append_assoc]
              have harith : fuel - 1 - q.1.length =
                  fuel + 1 - 1 - (q.1.length + 1) := by omega
              rw [harith]
        · rw [if_neg hc] at hfp
          cases hfp2 : findPlaceholder (c2 :: t2) with
          | none => rw [hfp2] at hfp; simp at hfp
          | some q =>
            rw [hfp2] at hfp
            simp only [Option.map_some', Option.some.injEq, Prod.mk.injEq] at hfp
            obtain ⟨rfl, rfl, rfl⟩ := hfp
            simp only [renderTemplateCore_cons_cons, if_neg hc,
              ih (c2 :: t2) q.1 q.2.1 q.2.2 (by simp; omega) hfp2,
              List.length_cons, List.cons_append, List.append_assoc]
            have harith : fuel - 1 - q.1.length =
                fuel + 1 - 1 - (q.1.length + 1) := by omega
            rw [harith]

theorem tmplReplacement_eq_amended (row : JObj) (raw : List Char) :
    tmplReplacement row raw = amendedReplacement row (trimChars raw) := by
  unfold tmplReplacement amendedReplacement
  by_cases hj : trimChars raw = "json".data
  · simp [hj]
  · simp only [hj, if_false]
    cases hg : row.getField (trimChars raw).asString with
    | none => rfl
    | some v => cases v <;> rfl

theorem renderCore_eq_specCore (row : JObj) :
    ∀ n s fuel fuelSpec, s.length ≤ n → s.length < fuel → s.length < fuelSpec →
      renderTemplateCore row fuel s =
        specRenderCore amendedReplacement row fuelSpec s := by
  intro n
  induction n using Nat.strong_induction_on with
  | _ n ih =>
    intro s fuel fuelSpec hn hf hfs
    obtain ⟨g, rfl⟩ : ∃ g, fuelSpec = g + 1 := ⟨fuelSpec - 1, by omega⟩
    unfold specRenderCore
    cases hfp : findPlaceholder s with
    | none =>
      exact renderTemplateCore_fp_none row fuel s hf hfp
    | some p =>
      obtain ⟨pre, body, rest⟩ := p
      have hlen := findPlaceholder_some_length s pre body rest hfp
      rw [renderTemplateCore_fp_some row fuel s pre body rest hf hfp,
        tmplReplacement_eq_amended]
      have hrest : renderTemplateCore row (fuel - 1 - pre.length) rest =
          specRenderCore amendedReplacement row g rest := by
        refine ih rest.length (by omega) rest _ _ (le_refl _) (by omega) (by omega)
      rw [hrest]

/-- Claim C5, counterexample: the claim says a placeholder whose key is
present in the record is replaced by the string form of the value, but
for a present key bound to `null` the source's `row[k] != null` test
yields the empty string, not the string form `"null"` of the value. -/
theorem renderTemplate_c5_counterexample :
    renderTemplate "\x7b\x7ba\x7d\x7d" (JObj.cons "a" .null .nil) = [] ∧
    specRenderTemplate "\x7b\x7ba\x7d\x7d" (JObj.cons "a" .null .nil) =
      "null".data := ⟨rfl, rfl⟩

/-- Claim C5 (amended): for every template string and record,
`renderTemplate` is a total (never-throwing, deterministic) function
that replaces every occurrence of the whitespace-tolerant placeholder
pattern `\x7b\x7b key \x7d\x7d` by: the JSON serialization of the
entire record when the trimmed key equals "json"; otherwise the string
form of `record[key]` when that key is present with a non-null value;
otherwise the empty string (unknown keys and null-valued keys silently
resolve to the empty string).  Stated as: the source's scan agrees with
the independently written find-first-and-replace reading of the spec,
with the amended replacement table. -/
theorem renderTemplate_c5_amended (tpl : String) (row : JObj) :
    renderTemplate tpl row = specRenderTemplateAmended tpl row := by
  unfold renderTemplate specRenderTemplateAmended
  exact renderCore_eq_specCore row tpl.data.length tpl.data _ _ (le_refl _)
    (by omega) (by omega)

/-! ### First/last index lemmas for `parseJsonLoose` -/

theorem firstIdxOf_spec :
    ∀ (l : List Char) (c : Char) (i : Nat), l[i]? = some c →
      (∀ k, k < i → l[k]? ≠ some c) → firstIdxOf c l = some i := by
  intro l
  induction l with
  | nil => intro c i h1 _; simp at h1
  | cons x t ih =>
    intro c i h1 h2
    by_cases hx : x = c
    · cases i with
      | zero => simp [firstIdxOf, hx]
      | succ i' =>
        exact absurd (by simp [hx] : (x :: t)[0]? = some c) (h2 0 (by omega))
    · cases i with
      | zero => simp at h1; exact absurd h1 hx
      | succ i' =>
        simp only [List.getElem?_cons_succ] at h1
        have h2' : ∀ k, k < i' → t[k]? ≠ some c := by
          intro k hk
          have := h2 (k + 1) (by omega)
          simpa using this
        simp [firstIdxOf, hx, ih c i' h1 h2']

theorem firstIdxOf_none :
    ∀ (l : List Char) (c : Char), (∀ k : Nat, l[k]? ≠ some c) →
      firstIdxOf c l = none := by
  intro l
  induction l with
  | nil => intro c _; rfl
  | cons x t ih =>
    intro c h
    have hx : ¬x = c := by
      intro hx
      exact h 0 (by simp [hx])
    have ht : ∀ k : Nat, t[k]? ≠ some c := by
      intro k
      have := h (k + 1)
      simpa using this
    simp [firstIdxOf, hx, ih c ht]

theorem lastIdxOf_none :
    ∀ (l : List Char) (c : Char), (∀ k : Nat, l[k]? ≠ some c) →
      lastIdxOf c l = none := by
  intro l
  induction l with
  | nil => intro c _; rfl
  | cons x t ih =>
    intro c h
    have hx : ¬x = c := by
      intro hx
      exact h 0 (by simp [hx])
    have ht : ∀ k : Nat, t[k]? ≠ some c := by
      intro k
      have := h (k + 1)
      simpa using this
    simp [lastIdxOf, hx, ih c ht]

theorem lastIdxOf_spec :
    ∀ (l : List Char) (c : Char) (j : Nat), l[j]? = some c →
      (∀ k, j < k → l[k]? ≠ some c) → lastIdxOf c l = some j := by
  intro l
  induction l with
  | nil => intro c j h1 _; simp at h1
  | cons x t ih =>
    intro c j h1 h2
    cases j with
    | zero =>
      simp only [List.getElem?_cons_zero, Option.some.injEq] at h1
      have ht : ∀ k : Nat, t[k]? ≠ some c := by
        intro k
        have := h2 (k + 1) (by omega)
        simpa using this
      simp [lastIdxOf, lastIdxOf_none t c ht, h1]
    | succ j' =>
      simp only [List.getElem?_cons_succ] at h1
      have h2' : ∀ k, j' < k → t[k]? ≠ some c := by
        intro k hk
        have := h2 (k + 1) (by omega)
        simpa using this
      simp [lastIdxOf, ih c j' h1 h2']

/-- Claim C7: for every input string, `parseJsonLoose` always returns a
tagged success/failure result (it is a total function into a sum);
blank input fails with the "empty" tag; when the direct parse of the
fence-stripped text succeeds its value is returned; when the direct
parse fails and the text has a first `\x7b` at index `i` and a last
`\x7d` at index `j` with `i < j`, the result is exactly the parse of
the inclusive slice between them — in particular, when that second
parse also fails, the returned failure carries the last parser error
message; and when no `\x7b` exists at all the first error is returned. -/
theorem parseJsonLoose_c7 (s : List Char) :
    ((∃ v, parseJsonLoose s = .ok v) ∨ (∃ e, parseJsonLoose s = .error e)) ∧
    (trimChars s = [] → parseJsonLoose s = .error "empty") ∧
    (∀ v, trimChars s ≠ [] → jsonParse (stripCodeFences s) = .ok v →
      parseJsonLoose s = .ok v) ∧
    (∀ e1 i j, trimChars s ≠ [] →
      jsonParse (stripCodeFences s) = .error e1 →
      (stripCodeFences s)[i]? = some '\x7b' →
      (∀ k, k < i → (stripCodeFences s)[k]? ≠ some '\x7b') →
      (stripCodeFences s)[j]? = some '\x7d' →
      (∀ k, j < k → (stripCodeFences s)[k]? ≠ some '\x7d') →
      i < j →
      parseJsonLoose s =
        jsonParse (((stripCodeFences s).drop i).take (j + 1 - i))) ∧
    (∀ e1, trimChars s ≠ [] →
      jsonParse (stripCodeFences s) = .error e1 →
      (∀ k : Nat, (stripCodeFences s)[k]? ≠ some '\x7b') →
      parseJsonLoose s = .error e1) := by
  refine ⟨?_, ?_, ?_, ?_, ?_⟩
  · cases h : parseJsonLoose s with
    | ok v => exact Or.inl ⟨v, rfl⟩
    | error e => exact Or.inr ⟨e, rfl⟩
  · intro h
    simp [parseJsonLoose, h]
  · intro v h hok
    simp [parseJsonLoose, h, hok]
  · intro e1 i j h herr hi hifirst hj hjlast hij
    have hfi : firstIdxOf '\x7b' (stripCodeFences s) = some i :=
      firstIdxOf_spec _ _ _ hi hifirst
    have hla : lastIdxOf '\x7d' (stripCodeFences s) = some j :=
      lastIdxOf_spec _ _ _ hj hjlast
    cases hs2 : jsonParse (((stripCodeFences s).drop i).take (j + 1 - i)) with
    | ok v => simp [parseJsonLoose, h, herr, hfi, hla, hij, hs2]
    | error e2 => simp [parseJsonLoose, h, herr, hfi, hla, hij, hs2]
  · intro e1 h herr hnone
    have hfi : firstIdxOf '\x7b' (stripCodeFences s) = none :=
      firstIdxOf_none _ _ hnone
    cases hla : lastIdxOf '\x7d' (stripCodeFences s) with
    | none => simp [parseJsonLoose, h, herr, hfi, hla]
    | some j => simp [parseJsonLoose, h, herr, hfi, hla]

theorem parseJsonLoose_c7_witness :
    parseJsonLoose "xx\x7b\"a\":1\x7d".data =
      jsonParse (((stripCodeFences "xx\x7b\"a\":1\x7d".data).drop 2).take
        (8 + 1 - 2)) :=
  (parseJsonLoose_c7 "xx\x7b\"a\":1\x7d".data).2.2.2.1
    "Unexpected token in JSON" 2 8 (by decide) rfl (by decide)
    (by intro k hk; interval_cases k <;> decide) (by decide)
    (by
      intro k hk
      have hlen : (stripCodeFences ("xx\x7b\"a\":1\x7d" : String).data).length = 9 := by
        decide
      rw [List.getElem?_eq_none (by omega)]
      simp)
    (by omega)

/-! ### Digit and decimal-rendering lemmas -/

theorem isDigitChar_digitChar (d : Nat) : isDigitChar (digitChar d) = true := by
  unfold digitChar
  split <;> rfl

theorem undigitChar_digitChar {d : Nat} (h : d < 10) :
    undigitChar (digitChar d) = d := by
  interval_cases d <;> rfl

theorem natToCharsCore_digits :
    ∀ (fuel n : Nat) (acc : List Char),
      (∀ c ∈ acc, isDigitChar c = true) →
      ∀ c ∈ natToCharsCore fuel n acc, isDigitChar c = true := by
  intro fuel
  induction fuel with
  | zero => intro n acc hacc c hc; exact hacc c hc
  | succ fuel ih =>
    intro n acc hacc c hc
    unfold natToCharsCore at hc
    split at hc
    · cases hc with
      | head => exact isDigitChar_digitChar n
      | tail _ hc => exact hacc c hc
    · refine ih (n / 10) _ ?_ c hc
      intro c2 hc2
      cases hc2 with
      | head => exact isDigitChar_digitChar (n % 10)
      | tail _ hc2 => exact hacc c2 hc2

theorem natToChars_digits (n : Nat) :
    ∀ c ∈ natToChars n, isDigitChar c = true := by
  intro c hc
  exact natToCharsCore_digits (n + 1) n [] (by simp) c hc

theorem natToCharsCore_ne_nil :
    ∀ (fuel n : Nat) (acc : List Char), n < fuel →
      natToCharsCore fuel n acc ≠ [] := by
  intro fuel
  induction fuel with
  | zero => intro n acc h; omega
  | succ fuel ih =>
    intro n acc h
    unfold natToCharsCore
    split
    · simp
    · next hn =>
      have hd := Nat.div_lt_self (show 0 < n by omega) (show 1 < 10 by omega)
      exact ih (n / 10) _ (by omega)

theorem natToChars_ne_nil (n : Nat) : natToChars n ≠ [] :=
  natToCharsCore_ne_nil (n + 1) n [] (by omega)

theorem natToCharsCore_foldl :
    ∀ (fuel n : Nat) (acc : List Char), n < fuel →
      (natToCharsCore fuel n acc).foldl
          (fun a c => a * 10 + undigitChar c) 0 =
        acc.foldl (fun a c => a * 10 + undigitChar c) n := by
  intro fuel
  induction fuel with
  | zero => intro n acc h; omega
  | succ fuel ih =>
    intro n acc h
    unfold natToCharsCore
    split
    · next hn =>
      simp only [List.foldl_cons, Nat.zero_mul, Nat.zero_add,
        undigitChar_digitChar hn]
    · next hn =>
      have hd := Nat.div_lt_self (show 0 < n by omega) (show 1 < 10 by omega)
      rw [ih (n / 10) _ (by omega)]
      simp only [List.foldl_cons,
        undigitChar_digitChar (Nat.mod_lt n (show 0 < 10 by omega))]
      congr 1
      omega

theorem charsToNat_natToChars (n : Nat) : charsToNat (natToChars n) = n := by
  unfold charsToNat natToChars
  rw [natToCharsCore_foldl (n + 1) n [] (by omega)]
  rfl

/-! ### takeWhile/dropWhile over appends -/

theorem takeWhile_append_all (p : Char → Bool) :
    ∀ (l1 l2 : List Char), (∀ c ∈ l1, p c = true) →
      (l1 ++ l2).takeWhile p = l1 ++ l2.takeWhile p := by
  intro l1
  induction l1 with
  | nil => intro l2 _; simp
  | cons c t ih =>
    intro l2 h
    simp [List.takeWhile_cons, h c (by simp),
      ih l2 (fun c2 hc2 => h c2 (by simp [hc2]))]

theorem dropWhile_append_all (p : Char → Bool) :
    ∀ (l1 l2 : List Char), (∀ c ∈ l1, p c = true) →
      (l1 ++ l2).dropWhile p = l2.dropWhile p := by
  intro l1
  induction l1 with
  | nil => intro l2 _; simp
  | cons c t ih =>
    intro l2 h
    simp [List.dropWhile_cons, h c (by simp),
      ih l2 (fun c2 hc2 => h c2 (by simp [hc2]))]

theorem takeWhile_cons_neg (p : Char → Bool) (c : Char) (t : List Char)
    (h : p c = false) : (c :: t).takeWhile p = [] := by
  simp [List.takeWhile_cons, h]

theorem dropWhile_cons_neg (p : Char → Bool) (c : Char) (t : List Char)
    (h : p c = false) : (c :: t).dropWhile p = c :: t := by
  simp [List.dropWhile_cons, h]

/-! ### `parseNatNum` on rendered numbers -/

theorem parseNatNum_natToChars (n : Nat) (rest : List Char)
    (hrest : ∀ c t2, rest = c :: t2 →
      isDigitChar c = false ∧ c ≠ '.' ∧ c ≠ 'e' ∧ c ≠ 'E') :
    parseNatNum (natToChars n ++ rest) = some (n, rest) := by
  unfold parseNatNum
  cases hr : rest with
  | nil =>
    subst hr
    rw [takeWhile_append_all _ _ _ (natToChars_digits n),
      dropWhile_append_all _ _ _ (natToChars_digits n)]
    simp [natToChars_ne_nil n, charsToNat_natToChars n]
  | cons c t2 =>
    obtain ⟨hdig, hdot, he, hE⟩ := hrest c t2 hr
    subst hr
    rw [takeWhile_append_all _ _ _ (natToChars_digits n),
      dropWhile_append_all _ _ _ (natToChars_digits n),
      takeWhile_cons_neg _ _ _ hdig, dropWhile_cons_neg _ _ _ hdig]
    simp [natToChars_ne_nil n, charsToNat_natToChars n, hdot, he, hE]

/-! ### String-body round trip -/

theorem data_asString (s : String) : s.data.asString = s := rfl

theorem parseStringBody_escape :
    ∀ (l : List Char), ∀ (rest : List Char) (fuel : Nat),
      (escapeStr l).length < fuel →
      parseStringBody fuel (escapeStr l ++ '"' :: rest) = some (l, rest) := by
  intro l
  induction l with
  | nil =>
    intro rest fuel hf
    obtain ⟨g, rfl⟩ : ∃ g, fuel = g + 1 := ⟨fuel - 1, by omega⟩
    rfl
  | cons c t ih =>
    intro rest fuel hf
    obtain ⟨g, rfl⟩ : ∃ g, fuel = g + 1 :=
      ⟨fuel - 1, by
        have : 0 < (escapeStr (c :: t)).length + 1 := by omega
        omega⟩
    have hlen : (escapeStr (c :: t)).length =
        (escapeChar c).length + (escapeStr t).length := by
      simp [escapeStr]
    by_cases h1 : c = '"'
    · subst h1
      have he : escapeChar '"' = ['\\', '"'] := rfl
      rw [show escapeStr ('"' :: t) = '\\' :: '"' :: escapeStr t from by
        simp [escapeStr, he]]
      rw [show ('\\' :: '"' :: escapeStr t) ++ '"' :: rest =
        '\\' :: '"' :: (escapeStr t ++ '"' :: rest) from by simp]
      have hred : parseStringBody (g + 1)
          ('\\' :: '"' :: (escapeStr t ++ '"' :: rest)) =
          match parseStringBody g (escapeStr t ++ '"' :: rest) with
          | none => none
          | some (cs, r2) => some ('"' :: cs, r2) := rfl
      rw [hred, ih rest g (by rw [hlen] at hf; simp [he] at hf; omega)]
    · by_cases h2 : c = '\\'
      · subst h2
        have he : escapeChar '\\' = ['\\', '\\'] := rfl
        rw [show escapeStr ('\\' :: t) = '\\' :: '\\' :: escapeStr t from by
          simp [escapeStr, he]]
        rw [show ('\\' :: '\\' :: escapeStr t) ++ '"' :: rest =
          '\\' :: '\\' :: (escapeStr t ++ '"' :: rest) from by simp]
        have hred : parseStringBody (g + 1)
            ('\\' :: '\\' :: (escapeStr t ++ '"' :: rest)) =
            match parseStringBody g (escapeStr t ++ '"' :: rest) with
            | none => none
            | some (cs, r2) => some ('\\' :: cs, r2) := rfl
        rw [hred, ih rest g (by rw [hlen] at hf; simp [he] at hf; omega)]
      · by_cases h3 : c = '\n'
        · subst h3
          have he : escapeChar '\n' = ['\\', 'n'] := rfl
          rw [show escapeStr ('\n' :: t) = '\\' :: 'n' :: escapeStr t from by
            simp [escapeStr, he]]
          rw [show ('\\' :: 'n' :: escapeStr t) ++ '"' :: rest =
            '\\' :: 'n' :: (escapeStr t ++ '"' :: rest) from by simp]
          have hred : parseStringBody (g + 1)
              ('\\' :: 'n' :: (escapeStr t ++ '"' :: rest)) =
              match parseStringBody g (escapeStr t ++ '"' :: rest) with
              | none => none
              | some (cs, r2) => some ('\n' :: cs, r2) := rfl
          rw [hred, ih rest g (by rw [hlen] at hf; simp [he] at hf; omega)]
        · by_cases h4 : c = '\t'
          · subst h4
            have he : escapeChar '\t' = ['\\', 't'] := rfl
            rw [show escapeStr ('\t' :: t) = '\\' :: 't' :: escapeStr t from by
              simp [escapeStr, he]]
            rw [show ('\\' :: 't' :: escapeStr t) ++ '"' :: rest =
              '\\' :: 't' :: (escapeStr t ++ '"' :: rest) from by simp]
            have hred : parseStringBody (g + 1)
                ('\\' :: 't' :: (escapeStr t ++ '"' :: rest)) =
                match parseStringBody g (escapeStr t ++ '"' :: rest) with
                | none => none
                | some (cs, r2) => some ('\t' :: cs, r2) := rfl
            rw [hred, ih rest g (by rw [hlen] at hf; simp [he] at hf; omega)]
          · by_cases h5 : c = '\r'
            · subst h5
              have he : escapeChar '\r' = ['\\', 'r'] := rfl
              rw [show escapeStr ('\r' :: t) = '\\' :: 'r' :: escapeStr t from by
                simp [escapeStr, he]]
              rw [show ('\\' :: 'r' :: escapeStr t) ++ '"' :: rest =
                '\\' :: 'r' :: (escapeStr t ++ '"' :: rest) from by simp]
              have hred : parseStringBody (g + 1)
                  ('\\' :: 'r' :: (escapeStr t ++ '"' :: rest)) =
                  match parseStringBody g (escapeStr t ++ '"' :: rest) with
                  | none => none
                  | some (cs, r2) => some ('\r' :: cs, r2) := rfl
              rw [hred, ih rest g (by rw [hlen] at hf; simp [he] at hf; omega)]
            · have he : escapeChar c = [c] := by
                simp [escapeChar, h1, h2, h3, h4, h5]
              rw [show escapeStr (c :: t) = c :: escapeStr t from by
                simp [escapeStr, he]]
              rw [List.cons_append]
              unfold parseStringBody
              rw [if_neg h1, if_neg h2,
                ih rest g (by rw [hlen] at hf; simp [he] at hf; omega)]

theorem parseString_escape (l rest : List Char) :
    parseString (escapeStr l ++ '"' :: rest) = some (l, rest) := by
  unfold parseString
  refine parseStringBody_escape l rest _ ?_
  simp only [List.length_append, List.length_cons]
  omega

/-! ### Size bounds for the parser fuel -/

theorem JVal.jsize_pos (v : JVal) : 1 ≤ v.jsize := by
  cases v <;> simp [JVal.jsize, JArr.jsizeItems, JObj.jsizeFields]

theorem JArr.jsizeItems_pos (a : JArr) : 1 ≤ a.jsizeItems := by
  cases a <;> simp [JVal.jsize, JArr.jsizeItems]

theorem JObj.jsizeFields_pos (o : JObj) : 1 ≤ o.jsizeFields := by
  cases o <;> simp [JVal.jsize, JObj.jsizeFields]

theorem intToChars_ne_nil (n : Int) : intToChars n ≠ [] := by
  unfold intToChars
  split
  · simp
  · exact natToChars_ne_nil _

mutual
theorem JVal.jsize_bound : ∀ v : JVal, v.jsize + 1 ≤ 2 * v.stringify.length
  | .null => by decide
  | .bool b => by cases b <;> decide
  | .num n => by
    have h := intToChars_ne_nil n
    have h2 : 0 < (intToChars n).length := List.length_pos.mpr h
    simp only [JVal.jsize, JVal.stringify]
    omega
  | .str s => by
    simp only [JVal.jsize, JVal.stringify, List.length_cons,
      List.length_append, List.length_singleton]
    omega
  | .arr a => by
    have h := JArr.jsizeItems_bound a
    simp only [JVal.jsize, JVal.stringify, List.length_cons,
      List.length_append, List.length_singleton]
    omega
  | .obj o => by
    have h := JObj.jsizeFields_bound o
    simp only [JVal.jsize, JVal.stringify, List.length_cons,
      List.length_append, List.length_singleton]
    omega
theorem JArr.jsizeItems_bound :
    ∀ a : JArr, a.jsizeItems ≤ 2 * a.stringifyItems.length + 1
  | .nil => by decide
  | .cons x .nil => by
    have h := JVal.jsize_bound x
    simp only [JArr.jsizeItems, JArr.stringifyItems, JVal.jsize]
    omega
  | .cons x (.cons y t) => by
    have h1 := JVal.jsize_bound x
    have h2 := JArr.jsizeItems_bound (.cons y t)
    simp only [JArr.jsizeItems, JArr.stringifyItems, List.length_append,
      List.length_cons] at h2 ⊢
    omega
theorem JObj.jsizeFields_bound :
    ∀ o : JObj, o.jsizeFields ≤ 2 * o.stringifyFields.length + 1
  | .nil => by decide
  | .cons k v .nil => by
    have h := JVal.jsize_bound v
    simp only [JObj.jsizeFields, JObj.stringifyFields, List.length_cons,
      List.length_append]
    omega
  | .cons k v (.cons k' v' t) => by
    have h1 := JVal.jsize_bound v
    have h2 := JObj.jsizeFields_bound (.cons k' v' t)
    simp only [JObj.jsizeFields, JObj.stringifyFields, List.length_cons,
      List.length_append] at h2 ⊢
    omega
end

/-! ### Shape facts about serialized values -/

theorem digit_char_facts (c : Char) (h : isDigitChar c = true) :
    isJsWs c = false ∧ c ≠ 'n' ∧ c ≠ 't' ∧ c ≠ 'f' ∧ c ≠ '"' ∧ c ≠ '[' ∧
      c ≠ '\x7b' ∧ c ≠ '-' ∧ c ≠ ']' ∧ c ≠ '\x7d' ∧ c ≠ tickChar := by
  refine ⟨?_, ?_, ?_, ?_, ?_, ?_, ?_, ?_, ?_, ?_, ?_⟩
  · by_contra hw
    rw [Bool.not_eq_false] at hw
    simp only [isJsWs, Bool.or_eq_true, decide_eq_true_eq] at hw
    rcases hw with ((((hw | hw) | hw) | hw) | hw) | hw <;>
      (rw [hw] at h; exact absurd h (by decide))
  all_goals (intro heq; rw [heq] at h; exact absurd h (by decide))

theorem natToChars_head (n : Nat) :
    ∃ c l2, natToChars n = c :: l2 ∧ isDigitChar c = true := by
  cases hl : natToChars n with
  | nil => exact absurd hl (natToChars_ne_nil n)
  | cons c l2 =>
    exact ⟨c, l2, rfl, natToChars_digits n c (by rw [hl]; simp)⟩

theorem skipWs_cons_not_ws {c : Char} {t : List Char} (h : isJsWs c = false) :
    skipWs (c :: t) = c :: t := by
  simp [skipWs, List.dropWhile_cons, h]

theorem stringify_head (v : JVal) :
    ∃ c l2, v.stringify = c :: l2 ∧ isJsWs c = false ∧ c ≠ ']' ∧
      c ≠ '\x7d' ∧ c ≠ tickChar := by
  cases v with
  | null => exact ⟨'n', "ull".data, rfl, by decide, by decide, by decide, by decide⟩
  | bool b =>
    cases b
    · exact ⟨'f', "alse".data, rfl, by decide, by decide, by decide, by decide⟩
    · exact ⟨'t', "rue".data, rfl, by decide, by decide, by decide, by decide⟩
  | num n =>
    show ∃ c l2, intToChars n = c :: l2 ∧ _
    unfold intToChars
    split
    · exact ⟨'-', _, rfl, by decide, by decide, by decide, by decide⟩
    · obtain ⟨c, l2, hl, hc⟩ := natToChars_head n.toNat
      obtain ⟨hw, _, _, _, _, _, _, _, h1, h2, h3⟩ := digit_char_facts c hc
      exact ⟨c, l2, hl, hw, h1, h2, h3⟩
  | str s => exact ⟨'"', _, rfl, by decide, by decide, by decide, by decide⟩
  | arr a => exact ⟨'[', _, rfl, by decide, by decide, by decide, by decide⟩
  | obj o => exact ⟨'\x7b', _, rfl, by decide, by decide, by decide, by decide⟩

/-! ### The parser/serializer round trip -/

theorem stringifyItems_head (x : JVal) (a : JArr) :
    ∃ c l2, (JArr.cons x a).stringifyItems = c :: l2 ∧ isJsWs c = false ∧
      c ≠ ']' ∧ c ≠ '\x7d' := by
  obtain ⟨c, l2, hx, hw, h1, h2, _⟩ := stringify_head x
  cases a with
  | nil => exact ⟨c, l2, by rw [JArr.stringifyItems, hx], hw, h1, h2⟩
  | cons y a2 =>
    exact ⟨c, l2 ++ ',' :: (JArr.cons y a2).stringifyItems,
      by rw [JArr.stringifyItems, hx]; simp, hw, h1, h2⟩

theorem parse_roundtrip :
    ∀ fuel : Nat,
      (∀ (v : JVal) (rest : List Char), v.jsize ≤ fuel →
        (∀ c t2, rest = c :: t2 →
          isDigitChar c = false ∧ c ≠ '.' ∧ c ≠ 'e' ∧ c ≠ 'E') →
        parseVal fuel (v.stringify ++ rest) = some (v, rest)) ∧
      (∀ (x : JVal) (a : JArr) (rest : List Char),
        (JArr.cons x a).jsizeItems ≤ fuel →
        parseArrItems fuel ((JArr.cons x a).stringifyItems ++ ']' :: rest) =
          some (.cons x a, rest)) ∧
      (∀ (k : String) (v : JVal) (o : JObj) (rest : List Char),
        (JObj.cons k v o).jsizeFields ≤ fuel →
        parseObjFields fuel
            ((JObj.cons k v o).stringifyFields ++ '\x7d' :: rest) =
          some (.cons k v o, rest)) := by
  intro fuel
  induction fuel using Nat.strong_induction_on with
  | _ fuel ih =>
    cases fuel with
    | zero =>
      refine ⟨fun v rest hv _ => absurd hv ?_, fun x a rest h => absurd h ?_,
        fun k v o rest h => absurd h ?_⟩
      · have := JVal.jsize_pos v; omega
      · have := JArr.jsizeItems_pos (.cons x a); omega
      · have := JObj.jsizeFields_pos (.cons k v o); omega
    | succ f =>
      have ihP := (ih f (by omega)).1
      have ihQ := (ih f (by omega)).2.1
      have ihR := (ih f (by omega)).2.2
      refine ⟨?_, ?_, ?_⟩
      · -- values
        intro v rest hv hrest
        cases v with
        | null => rfl
        | bool b => cases b <;> rfl
        | num n =>
          by_cases hn : n < 0
          · rw [show (JVal.num n).stringify = '-' :: natToChars n.natAbs from by
              unfold JVal.stringify intToChars; rw [if_pos hn]]
            rw [List.cons_append]
            have hred : parseVal (f + 1) ('-' :: (natToChars n.natAbs ++ rest)) =
                match parseNatNum (natToChars n.natAbs ++ rest) with
                | some (m, r2) => some (.num (-(m : Int)), r2)
                | none => none := rfl
            rw [hred, parseNatNum_natToChars n.natAbs rest hrest]
            have hcast : -((n.natAbs : Int)) = n := by omega
            simp only [hcast]
          · obtain ⟨d, l2, hd, hdig⟩ := natToChars_head n.toNat
            obtain ⟨hw, hd1, hd2, hd3, hd4, hd5, hd6, hd7, _, _, _⟩ :=
              digit_char_facts d hdig
            rw [show (JVal.num n).stringify = natToChars n.toNat from by
              unfold JVal.stringify intToChars; rw [if_neg hn]]
            rw [hd, List.cons_append]
            unfold parseVal
            rw [skipWs_cons_not_ws hw]
            simp only [if_neg hd1, if_neg hd2, if_neg hd3, if_neg hd4,
              if_neg hd5, if_neg hd6, if_neg hd7, hdig, if_true]
            rw [← List.cons_append, ← hd,
              parseNatNum_natToChars n.toNat rest hrest]
            have hcast : ((n.toNat : Int)) = n := by omega
            simp only [hcast]
        | str s =>
          rw [show (JVal.str s).stringify ++ rest =
            '"' :: (escapeStr s.data ++ '"' :: rest) from by
              rw [JVal.stringify]; simp]
          have hred : parseVal (f + 1)
              ('"' :: (escapeStr s.data ++ '"' :: rest)) =
              match parseString (escapeStr s.data ++ '"' :: rest) with
              | some (cs, r2) => some (.str cs.asString, r2)
              | none => none := rfl
          rw [hred, parseString_escape s.data rest]
          rfl
        | arr a =>
          cases a with
          | nil => rfl
          | cons x a2 =>
            rw [show (JVal.arr (JArr.cons x a2)).stringify ++ rest =
              '[' :: ((JArr.cons x a2).stringifyItems ++ ']' :: rest) from by
                rw [JVal.stringify]; simp]
            have hred : ∀ Z, parseVal (f + 1) ('[' :: Z) =
                match skipWs Z with
                | [] => none
                | c2 :: r2 =>
                  if c2 = ']' then some (.arr .nil, r2)
                  else
                    match parseArrItems f Z with
                    | some (a3, r3) => some (.arr a3, r3)
                    | none => none := fun Z => rfl
            rw [hred]
            obtain ⟨c, l2, hitems, hcw, hc1, hc2⟩ := stringifyItems_head x a2
            rw [hitems, List.cons_append, skipWs_cons_not_ws hcw]
            simp only [if_neg hc1]
            rw [← List.cons_append, ← hitems]
            rw [ihQ x a2 rest (by
              simp only [JVal.jsize] at hv
              omega)]
        | obj o =>
          cases o with
          | nil => rfl
          | cons k v2 o2 =>
            have hsize : (JObj.cons k v2 o2).jsizeFields ≤ f := by
              simp only [JVal.jsize] at hv
              omega
            obtain ⟨T, hT⟩ : ∃ T, (JObj.cons k v2 o2).stringifyFields =
                '"' :: T := by
              cases o2 <;> exact ⟨_, rfl⟩
            rw [show (JVal.obj (JObj.cons k v2 o2)).stringify ++ rest =
              '\x7b' :: ((JObj.cons k v2 o2).stringifyFields ++
                '\x7d' :: rest) from by rw [JVal.stringify]; simp]
            rw [hT, List.cons_append]
            have hred : ∀ X, parseVal (f + 1) ('\x7b' :: '"' :: X) =
                match parseObjFields f ('"' :: X) with
                | some (o3, r3) => some (.obj o3, r3)
                | none => none := fun X => rfl
            rw [hred, ← List.cons_append, ← hT,
              ihR k v2 o2 rest hsize]
      · -- array items
        intro x a rest hsize
        have hxsize : x.jsize ≤ f := by
          have hpos := JArr.jsizeItems_pos a
          simp only [JArr.jsizeItems] at hsize
          omega
        have hred : ∀ S, parseArrItems (f + 1) S =
            match parseVal f S with
            | none => none
            | some (v, r) =>
              match skipWs r with
              | [] => none
              | c :: r2 =>
                if c = ',' then
                  match parseArrItems f r2 with
                  | some (a3, r3) => some (.cons v a3, r3)
                  | none => none
                else if c = ']' then some (.cons v .nil, r2)
                else none := fun S => rfl
        cases a with
        | nil =>
          rw [show (JArr.cons x .nil).stringifyItems = x.stringify from rfl,
            hred, ihP x (']' :: rest) hxsize (by
              intro c t2 heq
              injection heq with h1 h2
              subst h1
              exact ⟨by decide, by decide, by decide, by decide⟩)]
          rfl
        | cons y a2 =>
          rw [show (JArr.cons x (JArr.cons y a2)).stringifyItems ++
              ']' :: rest =
            x.stringify ++ ',' ::
              ((JArr.cons y a2).stringifyItems ++ ']' :: rest) from by
                rw [JArr.stringifyItems]; simp]
          rw [hred, ihP x
            (',' :: ((JArr.cons y a2).stringifyItems ++ ']' :: rest))
            hxsize (by
              intro c t2 heq
              injection heq with h1 h2
              subst h1
              exact ⟨by decide, by decide, by decide, by decide⟩)]
          have htail : (JArr.cons y a2).jsizeItems ≤ f := by
            have := JVal.jsize_pos x
            simp only [JArr.jsizeItems] at hsize ⊢
            omega
          show (match parseArrItems f
              ((JArr.cons y a2).stringifyItems ++ ']' :: rest) with
            | some (a3, r3) => some (JArr.cons x a3, r3)
            | none => none) = some (JArr.cons x (JArr.cons y a2), rest)
          rw [ihQ y a2 rest htail]
      · -- object fields
        intro k v o rest hsize
        have hvsize : v.jsize ≤ f := by
          have hpos := JObj.jsizeFields_pos o
          simp only [JObj.jsizeFields] at hsize
          omega
        have hredO : ∀ X, parseObjFields (f + 1) ('"' :: X) =
            match parseString X with
            | none => none
            | some (k2, r1) =>
              match skipWs r1 with
              | [] => none
              | c2 :: r2 =>
                if c2 = ':' then
                  match parseVal f r2 with
                  | none => none
                  | some (v2, r3) =>
                    match skipWs r3 with
                    | [] => none
                    | c3 :: r4 =>
                      if c3 = ',' then
                        match parseObjFields f r4 with
                        | some (o4, r5) => some (.cons k2.asString v2 o4, r5)
                        | none => none
                      else if c3 = '\x7d' then
                        some (.cons k2.asString v2 .nil, r4)
                      else none
                else none := fun X => rfl
        cases o with
        | nil =>
          rw [show (JObj.cons k v .nil).stringifyFields ++ '\x7d' :: rest =
            '"' :: (escapeStr k.data ++ '"' ::
              (':' :: (v.stringify ++ '\x7d' :: rest))) from by
                simp [JObj.stringifyFields]]
          rw [hredO, parseString_escape k.data
            (':' :: (v.stringify ++ '\x7d' :: rest))]
          show (match parseVal f (v.stringify ++ '\x7d' :: rest) with
            | none => none
            | some (v2, r3) =>
              match skipWs r3 with
              | [] => none
              | c3 :: r4 =>
                if c3 = ',' then
                  match parseObjFields f r4 with
                  | some (o4, r5) =>
                    some (JObj.cons k.data.asString v2 o4, r5)
                  | none => none
                else if c3 = '\x7d' then
                  some (JObj.cons k.data.asString v2 .nil, r4)
                else none) = some (JObj.cons k v .nil, rest)
          rw [ihP v ('\x7d' :: rest) hvsize (by
            intro c t2 heq
            injection heq with h1 h2
            subst h1
            exact ⟨by decide, by decide, by decide, by decide⟩)]
          rfl
        | cons k2 v2 o2 =>
          have htail : (JObj.cons k2 v2 o2).jsizeFields ≤ f := by
            have := JVal.jsize_pos v
            simp only [JObj.jsizeFields] at hsize ⊢
            omega
          rw [show (JObj.cons k v (JObj.cons k2 v2 o2)).stringifyFields ++
              '\x7d' :: rest =
            '"' :: (escapeStr k.data ++ '"' ::
              (':' :: (v.stringify ++ ',' ::
                ((JObj.cons k2 v2 o2).stringifyFields ++ '\x7d' :: rest))))
            from by simp [JObj.stringifyFields]]
          rw [hredO, parseString_escape k.data
            (':' :: (v.stringify ++ ',' ::
              ((JObj.cons k2 v2 o2).stringifyFields ++ '\x7d' :: rest)))]
          show (match parseVal f (v.stringify ++ ',' ::
              ((JObj.cons k2 v2 o2).stringifyFields ++ '\x7d' :: rest)) with
            | none => none
            | some (v3, r3) =>
              match skipWs r3 with
              | [] => none
              | c3 :: r4 =>
                if c3 = ',' then
                  match parseObjFields f r4 with
                  | some (o4, r5) =>
                    some (JObj.cons k.data.asString v3 o4, r5)
                  | none => none
                else if c3 = '\x7d' then
                  some (JObj.cons k.data.asString v3 .nil, r4)
                else none) =
            some (JObj.cons k v (JObj.cons k2 v2 o2), rest)
          rw [ihP v (',' ::
            ((JObj.cons k2 v2 o2).stringifyFields ++ '\x7d' :: rest))
            hvsize (by
              intro c t2 heq
              injection heq with h1 h2
              subst h1
              exact ⟨by decide, by decide, by decide, by decide⟩)]
          show (match parseObjFields f
              ((JObj.cons k2 v2 o2).stringifyFields ++ '\x7d' :: rest) with
            | some (o4, r5) => some (JObj.cons k.data.asString v o4, r5)
            | none => none) =
            some (JObj.cons k v (JObj.cons k2 v2 o2), rest)
          rw [ihR k2 v2 o2 rest htail]
          rfl

/-! ### Round trip through `jsonParse`, `stripCodeFences`, `parseJsonLoose` -/

theorem getLast?_mem_chars {l : List Char} {a : Char}
    (h : l.getLast? = some a) : a ∈ l := by
  obtain ⟨h2, heq⟩ := List.mem_getLast?_eq_getLast (Option.mem_def.mpr h)
  rw [heq]
  exact List.getLast_mem h2

theorem jsonParse_stringify (v : JVal) : jsonParse v.stringify = .ok v := by
  have hsize : v.jsize ≤ 2 * v.stringify.length + 2 := by
    have := JVal.jsize_bound v
    omega
  have h := (parse_roundtrip (2 * v.stringify.length + 2)).1 v [] hsize
    (by intro c t2 heq; cases heq)
  rw [List.append_nil] at h
  unfold jsonParse
  rw [h]
  rfl

theorem dropWhile_eq_self_of_head {p : Char → Bool} {l : List Char}
    (h : ∀ c, l.head? = some c → p c = false) :
    l.dropWhile p = l := by
  cases l with
  | nil => rfl
  | cons c t =>
    rw [List.dropWhile_cons, h c rfl]
    simp

theorem trimChars_eq_self {l : List Char}
    (h1 : ∀ c, l.head? = some c → isJsWs c = false)
    (h2 : ∀ c, l.getLast? = some c → isJsWs c = false) :
    trimChars l = l := by
  unfold trimChars
  rw [dropWhile_eq_self_of_head h1]
  rw [dropWhile_eq_self_of_head
    (fun c hc => h2 c (by rw [← List.head?_reverse]; exact hc))]
  exact List.reverse_reverse l

theorem natToChars_getLast (n : Nat) :
    ∃ c, (natToChars n).getLast? = some c ∧ isDigitChar c = true := by
  cases h : (natToChars n).getLast? with
  | none => exact absurd (List.getLast?_eq_none_iff.mp h) (natToChars_ne_nil n)
  | some c => exact ⟨c, rfl, natToChars_digits n c (getLast?_mem_chars h)⟩

theorem stringify_getLast (v : JVal) :
    ∃ c, v.stringify.getLast? = some c ∧ isJsWs c = false := by
  cases v with
  | null => exact ⟨'l', by decide, by decide⟩
  | bool b =>
    cases b
    · exact ⟨'e', by decide, by decide⟩
    · exact ⟨'e', by decide, by decide⟩
  | num n =>
    show ∃ c, (intToChars n).getLast? = some c ∧ isJsWs c = false
    unfold intToChars
    split
    · obtain ⟨c, hc, hdig⟩ := natToChars_getLast n.natAbs
      refine ⟨c, ?_, (digit_char_facts c hdig).1⟩
      rw [show ('-' :: natToChars n.natAbs : List Char) =
        ['-'] ++ natToChars n.natAbs from rfl,
        List.getLast?_append_of_ne_nil ['-'] (natToChars_ne_nil n.natAbs)]
      exact hc
    · obtain ⟨c, hc, hdig⟩ := natToChars_getLast n.toNat
      exact ⟨c, hc, (digit_char_facts c hdig).1⟩
  | str s =>
    refine ⟨'"', ?_, by decide⟩
    show (('"' :: escapeStr s.data) ++ ['"']).getLast? = some '"'
    exact List.getLast?_concat _
  | arr a =>
    refine ⟨']', ?_, by decide⟩
    show (('[' :: JArr.stringifyItems a) ++ [']']).getLast? = some ']'
    exact List.getLast?_concat _
  | obj o =>
    refine ⟨'\x7d', ?_, by decide⟩
    show (('\x7b' :: JObj.stringifyFields o) ++ ['\x7d']).getLast? =
      some '\x7d'
    exact List.getLast?_concat _

theorem trimChars_stringify (v : JVal) :
    trimChars v.stringify = v.stringify := by
  obtain ⟨c, l2, hs, hw, _, _, _⟩ := stringify_head v
  obtain ⟨e, he, hew⟩ := stringify_getLast v
  refine trimChars_eq_self ?_ ?_
  · intro c2 hc2
    rw [hs, List.head?_cons] at hc2
    injection hc2 with h1
    rw [← h1]
    exact hw
  · intro c2 hc2
    rw [he] at hc2
    injection hc2 with h1
    rw [← h1]
    exact hew

theorem startsWithTicks_stringify (v : JVal) :
    startsWithTicks v.stringify = false := by
  obtain ⟨c, l2, hs, _, _, _, htick⟩ := stringify_head v
  unfold startsWithTicks
  rw [hs]
  apply decide_eq_false
  intro heq
  have h3 : some c = some tickChar := congrArg List.head? heq
  injection h3 with h4
  exact htick h4

theorem stripCodeFences_stringify (v : JVal) :
    stripCodeFences v.stringify = v.stringify := by
  simp only [stripCodeFences]
  rw [trimChars_stringify, startsWithTicks_stringify]
  simp

theorem trimChars_stringify_newline (v : JVal) :
    trimChars (v.stringify ++ ['\n']) = v.stringify := by
  obtain ⟨c, l2, hs, hw, _, _, _⟩ := stringify_head v
  obtain ⟨e, he, hew⟩ := stringify_getLast v
  unfold trimChars
  rw [dropWhile_eq_self_of_head (p := isJsWs)
    (l := v.stringify ++ ['\n']) (by
    intro c2 hc2
    rw [hs, List.cons_append, List.head?_cons] at hc2
    injection hc2 with h1
    rw [← h1]
    exact hw)]
  rw [List.reverse_append,
    show (['\n'] : List Char).reverse = ['\n'] from rfl,
    dropWhile_append_all isJsWs ['\n'] v.stringify.reverse (by decide)]
  rw [dropWhile_eq_self_of_head (p := isJsWs)
    (l := v.stringify.reverse) (by
    intro c2 hc2
    rw [List.head?_reverse, he] at hc2
    injection hc2 with h1
    rw [← h1]
    exact hew)]
  exact List.reverse_reverse v.stringify

theorem fenceWrap_assoc (lang body : List Char) :
    fenceWrap lang body =
      ("```".data ++ lang ++ '\n' :: body) ++ ('\n' :: "```".data) := by
  simp [fenceWrap]

theorem trimChars_fenceWrap (lang : List Char) (v : JVal) :
    trimChars (fenceWrap lang v.stringify) = fenceWrap lang v.stringify := by
  refine trimChars_eq_self ?_ ?_
  · intro c hc
    rw [show (fenceWrap lang v.stringify).head? = some tickChar from rfl]
      at hc
    injection hc with h1
    rw [← h1]
    decide
  · intro c hc
    rw [fenceWrap_assoc,
      List.getLast?_append_of_ne_nil _ (by simp),
      show ('\n' :: "```".data : List Char).getLast? = some tickChar from
        by decide] at hc
    injection hc with h1
    rw [← h1]
    decide

theorem startsWithTicks_fenceWrap (lang : List Char) (body : List Char) :
    startsWithTicks (fenceWrap lang body) = true := by
  unfold startsWithTicks fenceWrap
  exact decide_eq_true rfl

theorem stripCodeFences_fenceWrap (v : JVal) (lang : List Char)
    (hlang : ∀ c ∈ lang, isAsciiAlpha c = true) :
    stripCodeFences (fenceWrap lang v.stringify) = v.stringify := by
  have hdrop : (fenceWrap lang v.stringify).drop 3 =
      lang ++ '\n' :: (v.stringify ++ '\n' :: "```".data) := by
    rw [show (fenceWrap lang v.stringify).drop 3 =
      (lang ++ '\n' :: v.stringify) ++ '\n' :: "```".data from rfl]
    simp
  have hr1 : (lang ++ '\n' :: (v.stringify ++ '\n' :: "```".data)).dropWhile
      isAsciiAlpha = '\n' :: (v.stringify ++ '\n' :: "```".data) := by
    rw [dropWhile_append_all isAsciiAlpha lang _ hlang]
    exact dropWhile_cons_neg _ _ _ (by decide)
  have hrev3 : ("```".data : List Char).reverse = "```".data := by decide
  have hrev : (("```".data ++ ['\n']) ++ v.stringify.reverse).dropWhile
      isJsWs = ("```".data ++ ['\n']) ++ v.stringify.reverse := by
    apply dropWhile_eq_self_of_head
    intro c hc
    rw [show ((("```".data ++ ['\n']) ++ v.stringify.reverse)).head? =
      some tickChar from rfl] at hc
    injection hc with h1
    rw [← h1]
    decide
  have hticks2 : startsWithTicks
      (("```".data ++ ['\n']) ++ v.stringify.reverse) = true := by
    unfold startsWithTicks
    exact decide_eq_true rfl
  have hdrop2 : ((("```".data ++ ['\n']) ++ v.stringify.reverse)).drop 3 =
      '\n' :: v.stringify.reverse := rfl
  simp only [stripCodeFences, trimChars_fenceWrap, startsWithTicks_fenceWrap,
    if_true, hdrop, hr1, List.reverse_append, List.reverse_cons, hrev3,
    List.reverse_reverse, hrev, hticks2, hdrop2]
  exact trimChars_stringify_newline v

/-- C6: for every JSON value V, `parseJsonLoose` applied to the JSON
serialization of V — either bare, or wrapped in a fenced code block of
three backticks with an optional alphabetic language tag — succeeds and
returns a value structurally equal to V. -/
theorem parseJsonLoose_roundtrip_c6 (v : JVal) (lang : List Char)
    (hlang : ∀ c ∈ lang, isAsciiAlpha c = true) :
    parseJsonLoose v.stringify = .ok v ∧
    parseJsonLoose (fenceWrap lang v.stringify) = .ok v := by
  obtain ⟨c, l2, hs, _, _, _, _⟩ := stringify_head v
  constructor
  · simp only [parseJsonLoose]
    rw [trimChars_stringify, if_neg (by rw [hs]; simp)]
    rw [stripCodeFences_stringify, jsonParse_stringify]
  · simp only [parseJsonLoose]
    rw [trimChars_fenceWrap, if_neg (by
      intro h
      have h2 : (some tickChar : Option Char) = none :=
        congrArg List.head? h
      exact Option.noConfusion h2)]
    rw [stripCodeFences_fenceWrap v lang hlang, jsonParse_stringify]

theorem parseJsonLoose_roundtrip_c6_witness :
    (∀ c ∈ "json".data, isAsciiAlpha c = true) ∧
    parseJsonLoose (JVal.obj (JObj.cons "a" (JVal.num 1)
        (JObj.cons "b" (JVal.str "x") JObj.nil))).stringify =
      .ok (JVal.obj (JObj.cons "a" (JVal.num 1)
        (JObj.cons "b" (JVal.str "x") JObj.nil))) ∧
    parseJsonLoose (fenceWrap "json".data
        (JVal.obj (JObj.cons "a" (JVal.num 1)
          (JObj.cons "b" (JVal.str "x") JObj.nil))).stringify) =
      .ok (JVal.obj (JObj.cons "a" (JVal.num 1)
        (JObj.cons "b" (JVal.str "x") JObj.nil))) :=
  ⟨by decide,
    (parseJsonLoose_roundtrip_c6 (JVal.obj (JObj.cons "a" (JVal.num 1)
      (JObj.cons "b" (JVal.str "x") JObj.nil))) "json".data (by decide)).1,
    (parseJsonLoose_roundtrip_c6 (JVal.obj (JObj.cons "a" (JVal.num 1)
      (JObj.cons "b" (JVal.str "x") JObj.nil))) "json".data (by decide)).2⟩

/-! ### The concurrency limiter: invariant and admission bound -/

theorem lt_length_of_getElem? {l : List LimPhase} {i : Nat} {c : LimPhase}
    (h : l[i]? = some c) : i < l.length := by
  by_contra h2
  rw [List.getElem?_eq_none (by omega)] at h
  cases h

theorem countPhase_set (p new : LimPhase) :
    ∀ (l : List LimPhase) (i : Nat) (old : LimPhase), l[i]? = some old →
      countPhase p (l.set i new) + (if old = p then 1 else 0) =
        countPhase p l + (if new = p then 1 else 0) := by
  intro l
  induction l with
  | nil => intro i old h; cases h
  | cons a t ih =>
    intro i old h
    cases i with
    | zero =>
      simp only [List.getElem?_cons_zero, Option.some.injEq] at h
      subst h
      simp only [List.set_cons_zero, countPhase]
      omega
    | succ k =>
      simp only [List.getElem?_cons_succ] at h
      have h2 := ih k old h
      simp only [List.set_cons_succ, countPhase]
      omega

theorem countPhase_pos {l : List LimPhase} {i : Nat} {p : LimPhase}
    (h : l[i]? = some p) : 1 ≤ countPhase p l := by
  induction l generalizing i with
  | nil => cases h
  | cons a t ih =>
    cases i with
    | zero =>
      simp only [List.getElem?_cons_zero, Option.some.injEq] at h
      subst h
      simp [countPhase]
    | succ k =>
      simp only [List.getElem?_cons_succ] at h
      have := ih h
      simp only [countPhase]
      omega

theorem countPhase_replicate (p q : LimPhase) (n : Nat) (h : q ≠ p) :
    countPhase p (List.replicate n q) = 0 := by
  induction n with
  | zero => rfl
  | succ k ih => simp [List.replicate, countPhase, ih, h]

theorem limStep_submit_inv {limit : Nat} {s s' : LimState} {i : Nat}
    (hinv : LimInv limit s) (hw : countPhase .woken s.phases = 0)
    (hstep : limStep s (.submit i) = some s') :
    LimInv limit s' ∧ countPhase .woken s'.phases = 0 := by
  obtain ⟨hl, hact, hsum, hq, hnd, hlog⟩ := hinv
  simp only [limStep] at hstep
  by_cases hidle : s.phases[i]? = some LimPhase.idle
  · rw [if_pos hidle] at hstep
    have hilen : i < s.phases.length := lt_length_of_getElem? hidle
    have hni : i ∉ s.queue := by
      intro hmem
      have h2 := hq i hmem
      rw [hidle] at h2
      cases h2
    by_cases hfull : s.limit ≤ s.running
    · rw [if_pos hfull] at hstep
      injection hstep with hs'
      subst hs'
      have hca := countPhase_set .active .queued s.phases i .idle hidle
      have hcw := countPhase_set .woken .queued s.phases i .idle hidle
      simp only [show (LimPhase.idle = LimPhase.active) = False from by simp,
        show (LimPhase.queued = LimPhase.active) = False from by simp,
        show (LimPhase.idle = LimPhase.woken) = False from by simp,
        show (LimPhase.queued = LimPhase.woken) = False from by simp,
        if_false, Nat.add_zero] at hca hcw
      refine ⟨⟨hl, by
        show s.running = countPhase .active (s.phases.set i .queued)
        omega, by
        show s.running + countPhase .woken (s.phases.set i .queued) ≤ limit
        omega, ?_, ?_, ?_⟩, by
        show countPhase .woken (s.phases.set i .queued) = 0
        omega⟩
      · intro j hj
        simp only [List.mem_append, List.mem_singleton] at hj
        rcases hj with hj | hj
        · have h2 := hq j hj
          have hji : j ≠ i := by
            intro he
            rw [he, hidle] at h2
            cases h2
          show (s.phases.set i .queued)[j]? = some LimPhase.queued
          rw [List.getElem?_set_ne (fun he => hji he.symm)]
          exact h2
        · subst hj
          show (s.phases.set j .queued)[j]? = some LimPhase.queued
          exact List.getElem?_set_eq_of_lt _ hilen
      · show (s.queue ++ [i]).Nodup
        rw [List.nodup_append]
        exact ⟨hnd, List.nodup_singleton i, by
          intro a ha hai
          simp only [List.mem_singleton] at hai
          subst hai
          exact hni ha⟩
      · show s.queuedLog ++ [i] = s.wokenLog ++ (s.queue ++ [i])
        rw [hlog, List.append_assoc]
    · rw [if_neg hfull] at hstep
      injection hstep with hs'
      subst hs'
      have hca := countPhase_set .active .active s.phases i .idle hidle
      have hcw := countPhase_set .woken .active s.phases i .idle hidle
      simp only [show (LimPhase.idle = LimPhase.active) = False from by simp,
        show (LimPhase.active = LimPhase.active) = True from by simp,
        show (LimPhase.idle = LimPhase.woken) = False from by simp,
        show (LimPhase.active = LimPhase.woken) = False from by simp,
        if_false, if_true] at hca hcw
      refine ⟨⟨hl, by
        show s.running + 1 = countPhase .active (s.phases.set i .active)
        omega, by
        show s.running + 1 + countPhase .woken (s.phases.set i .active) ≤ limit
        omega, ?_, hnd, hlog⟩, by
        show countPhase .woken (s.phases.set i .active) = 0
        omega⟩
      intro j hj
      have h2 := hq j hj
      have hji : j ≠ i := by
        intro he
        rw [he, hidle] at h2
        cases h2
      show (s.phases.set i .active)[j]? = some LimPhase.queued
      rw [List.getElem?_set_ne (fun he => hji he.symm)]
      exact h2
  · rw [if_neg hidle] at hstep
    cases hstep

theorem limStep_nonsubmit_inv {limit : Nat} {s s' : LimState} {e : LimEvent}
    (hinv : LimInv limit s) (hns : e.isSubmit = false)
    (hstep : limStep s e = some s') : LimInv limit s' := by
  obtain ⟨hl, hact, hsum, hq, hnd, hlog⟩ := hinv
  cases e with
  | submit i => cases hns
  | finish i =>
    simp only [limStep] at hstep
    by_cases hai : s.phases[i]? = some LimPhase.active
    · rw [if_pos hai] at hstep
      have hrpos : 1 ≤ s.running := by
        have := countPhase_pos hai
        omega
      cases hqe : s.queue with
      | nil =>
        rw [hqe] at hstep
        injection hstep with hs'
        subst hs'
        have hca := countPhase_set .active .finished s.phases i .active hai
        have hcw := countPhase_set .woken .finished s.phases i .active hai
        simp only [show (LimPhase.active = LimPhase.active) = True from by
            simp,
          show (LimPhase.finished = LimPhase.active) = False from by simp,
          show (LimPhase.active = LimPhase.woken) = False from by simp,
          show (LimPhase.finished = LimPhase.woken) = False from by simp,
          if_false, if_true, Nat.add_zero] at hca hcw
        refine ⟨hl, by
          show s.running - 1 = countPhase .active (s.phases.set i .finished)
          omega, by
          show s.running - 1 +
            countPhase .woken (s.phases.set i .finished) ≤ limit
          omega, ?_, ?_, ?_⟩
        · intro j hj
          cases hj
        · exact List.nodup_nil
        · show s.queuedLog = s.wokenLog ++ []
          rw [hlog, hqe]
      | cons j rest =>
        rw [hqe] at hstep
        injection hstep with hs'
        subst hs'
        have hqj : s.phases[j]? = some LimPhase.queued :=
          hq j (by rw [hqe]; exact List.mem_cons_self j rest)
        have hij : i ≠ j := by
          intro he
          rw [← he, hai] at hqj
          cases hqj
        have hqj2 : (s.phases.set i .finished)[j]? =
            some LimPhase.queued := by
          rw [List.getElem?_set_ne hij]
          exact hqj
        have hca1 := countPhase_set .active .finished s.phases i .active hai
        have hcw1 := countPhase_set .woken .finished s.phases i .active hai
        have hca2 := countPhase_set .active .woken
          (s.phases.set i .finished) j .queued hqj2
        have hcw2 := countPhase_set .woken .woken
          (s.phases.set i .finished) j .queued hqj2
        simp only [show (LimPhase.active = LimPhase.active) = True from by
            simp,
          show (LimPhase.finished = LimPhase.active) = False from by simp,
          show (LimPhase.active = LimPhase.woken) = False from by simp,
          show (LimPhase.finished = LimPhase.woken) = False from by simp,
          show (LimPhase.queued = LimPhase.active) = False from by simp,
          show (LimPhase.queued = LimPhase.woken) = False from by simp,
          show (LimPhase.woken = LimPhase.active) = False from by simp,
          show (LimPhase.woken = LimPhase.woken) = True from by simp,
          if_false, if_true, Nat.add_zero] at hca1 hcw1 hca2 hcw2
        have hndrest : rest.Nodup ∧ j ∉ rest := by
          rw [hqe] at hnd
          exact ⟨hnd.of_cons, (List.nodup_cons.mp hnd).1⟩
        refine ⟨hl, by
          show s.running - 1 = countPhase .active
            ((s.phases.set i .finished).set j .woken)
          omega, by
          show s.running - 1 + countPhase .woken
            ((s.phases.set i .finished).set j .woken) ≤ limit
          omega, ?_, hndrest.1, ?_⟩
        · intro j2 hj2
          have hj2q : j2 ∈ s.queue := by rw [hqe]; exact List.mem_cons_of_mem j hj2
          have h2 := hq j2 hj2q
          have hj2i : j2 ≠ i := by
            intro he
            rw [he, hai] at h2
            cases h2
          have hj2j : j2 ≠ j := fun he => hndrest.2 (he ▸ hj2)
          show ((s.phases.set i .finished).set j .woken)[j2]? =
            some LimPhase.queued
          rw [List.getElem?_set_ne (fun he => hj2j he.symm),
            List.getElem?_set_ne (fun he => hj2i he.symm)]
          exact h2
        · show s.queuedLog = s.wokenLog ++ [j] ++ rest
          rw [hlog, hqe, List.append_assoc]
          rfl
    · rw [if_neg hai] at hstep
      cases hstep
  | resume j =>
    simp only [limStep] at hstep
    by_cases hwj : s.phases[j]? = some LimPhase.woken
    · rw [if_pos hwj] at hstep
      injection hstep with hs'
      subst hs'
      have hwpos := countPhase_pos hwj
      have hca := countPhase_set .active .active s.phases j .woken hwj
      have hcw := countPhase_set .woken .active s.phases j .woken hwj
      simp only [show (LimPhase.woken = LimPhase.active) = False from by simp,
        show (LimPhase.active = LimPhase.active) = True from by simp,
        show (LimPhase.woken = LimPhase.woken) = True from by simp,
        show (LimPhase.active = LimPhase.woken) = False from by simp,
        if_false, if_true, Nat.add_zero] at hca hcw
      refine ⟨hl, by
        show s.running + 1 = countPhase .active (s.phases.set j .active)
        omega, by
        show s.running + 1 +
          countPhase .woken (s.phases.set j .active) ≤ limit
        omega, ?_, hnd, hlog⟩
      intro j2 hj2
      have h2 := hq j2 hj2
      have hj2j : j2 ≠ j := by
        intro he
        rw [he, hwj] at h2
        cases h2
      show (s.phases.set j .active)[j2]? = some LimPhase.queued
      rw [List.getElem?_set_ne (fun he => hj2j he.symm)]
      exact h2
    · rw [if_neg hwj] at hstep
      cases hstep

theorem limExec_nonsubmit_inv {limit : Nat} :
    ∀ (tr : List LimEvent) (s : LimState) (states : List LimState),
      (∀ e ∈ tr, e.isSubmit = false) →
      LimInv limit s →
      limExec s tr = some states →
      ∀ x ∈ states, LimInv limit x := by
  intro tr
  induction tr with
  | nil =>
    intro s states _ hinv hex
    simp only [limExec, Option.some.injEq] at hex
    subst hex
    intro x hx
    simp only [List.mem_singleton] at hx
    subst hx
    exact hinv
  | cons e t ih =>
    intro s states hns hinv hex
    simp only [limExec] at hex
    cases hstep : limStep s e with
    | none => rw [hstep] at hex; cases hex
    | some s2 =>
      rw [hstep] at hex
      simp only [] at hex
      cases hrec : limExec s2 t with
      | none => rw [hrec] at hex; cases hex
      | some sts2 =>
        rw [hrec] at hex
        simp only [Option.map_some', Option.some.injEq] at hex
        subst hex
        have hinv2 := limStep_nonsubmit_inv hinv
          (hns e (List.mem_cons_self e t)) hstep
        intro x hx
        rcases List.mem_cons.mp hx with hx | hx
        · subst hx; exact hinv
        · exact ih s2 sts2
            (fun e2 he2 => hns e2 (List.mem_cons_of_mem e he2))
            hinv2 hrec x hx

theorem limExec_phase_inv {limit : Nat} :
    ∀ (tr1 tr2 : List LimEvent) (s : LimState) (states : List LimState),
      (∀ e ∈ tr1, e.isSubmit = true) →
      (∀ e ∈ tr2, e.isSubmit = false) →
      LimInv limit s → countPhase .woken s.phases = 0 →
      limExec s (tr1 ++ tr2) = some states →
      ∀ x ∈ states, LimInv limit x := by
  intro tr1
  induction tr1 with
  | nil =>
    intro tr2 s states _ h2 hinv _ hex
    exact limExec_nonsubmit_inv tr2 s states h2 hinv (by simpa using hex)
  | cons e t ih =>
    intro tr2 s states h1 h2 hinv hw hex
    simp only [List.cons_append, limExec] at hex
    cases hstep : limStep s e with
    | none => rw [hstep] at hex; cases hex
    | some s2 =>
      rw [hstep] at hex
      simp only [] at hex
      rw [show t.append tr2 = t ++ tr2 from rfl] at hex
      cases hrec : limExec s2 (t ++ tr2) with
      | none => rw [hrec] at hex; cases hex
      | some sts2 =>
        rw [hrec] at hex
        simp only [Option.map_some', Option.some.injEq] at hex
        subst hex
        have hesub := h1 e (List.mem_cons_self e t)
        obtain ⟨i, hei⟩ : ∃ i, e = .submit i := by
          cases e with
          | submit i => exact ⟨i, rfl⟩
          | finish i => cases hesub
          | resume i => cases hesub
        subst hei
        obtain ⟨hinv2, hw2⟩ := limStep_submit_inv hinv hw hstep
        intro x hx
        rcases List.mem_cons.mp hx with hx | hx
        · subst hx; exact hinv
        · exact ih tr2 s2 sts2
            (fun e2 he2 => h1 e2 (List.mem_cons_of_mem _ he2))
            h2 hinv2 hw2 hrec x hx

theorem limInit_inv (n limit : Nat) : LimInv limit (limInit n limit) := by
  refine ⟨rfl, ?_, ?_, ?_, ?_, rfl⟩
  · show 0 = countPhase .active (List.replicate n .idle)
    rw [countPhase_replicate .active .idle n (by simp)]
  · show 0 + countPhase .woken (List.replicate n .idle) ≤ limit
    rw [countPhase_replicate .woken .idle n (by simp)]
    omega
  · intro j hj
    cases hj
  · exact List.nodup_nil

/-- C1 counterexample: the limiter of `useConcurrentQueue` does NOT
bound the number of running tasks by the limit for every interleaving.
With limit 1: task 0 is admitted, task 1 queues, task 0 finishes and
releases task 1 (`resolve()` wakes it, but its continuation runs in a
later microtask and `running` is not re-incremented until then); before
task 1 resumes, a new submission (task 2) sees `running = 0` and is
admitted; task 1 then resumes without re-checking the limit.  The
visited `running` counts are 0,1,1,0,1,2: the final instant has two
simultaneously running tasks against a limit of 1. -/
theorem useConcurrentQueue_c1_counterexample :
    (limExec (limInit 3 1)
        [.submit 0, .submit 1, .finish 0, .submit 2, .resume 1]).map
      (List.map LimState.running) = some [0, 1, 1, 0, 1, 2] ∧
    (limInit 3 1).limit = 1 := by
  constructor
  · rfl
  · rfl

/-- C1 amended: the admission bound does hold for the executions the
program actually produces, where all submissions happen synchronously
before any completion event (in `handleStart`, every `limiter.run` call
is issued in one synchronous pass before any network response settles).
For any trace consisting of submissions followed by completion and
resumption events, every reachable state keeps the running count within
the limit, and waiters are woken in strict arrival order: the arrival
log always equals the wakeup log followed by the current queue. -/
theorem useConcurrentQueue_c1_amended (n limit : Nat)
    (tr1 tr2 : List LimEvent) (states : List LimState)
    (h1 : ∀ e ∈ tr1, e.isSubmit = true)
    (h2 : ∀ e ∈ tr2, e.isSubmit = false)
    (hex : limExec (limInit n limit) (tr1 ++ tr2) = some states) :
    ∀ s ∈ states, s.running ≤ limit ∧
      s.queuedLog = s.wokenLog ++ s.queue := by
  have hall := limExec_phase_inv tr1 tr2 (limInit n limit) states h1 h2
    (limInit_inv n limit)
    (countPhase_replicate .woken .idle n (by simp)) hex
  intro s hs
  obtain ⟨_, _, h3, _, _, h6⟩ := hall s hs
  exact ⟨by omega, h6⟩

theorem useConcurrentQueue_c1_amended_witness :
    (∀ e ∈ ([.submit 0, .submit 1] : List LimEvent),
      e.isSubmit = true) ∧
    (∀ e ∈ ([.finish 0, .resume 1, .finish 1] : List LimEvent),
      e.isSubmit = false) ∧
    ∀ s ∈ [(⟨1, 0, [], [.idle, .idle], [], []⟩ : LimState),
        ⟨1, 1, [], [.active, .idle], [], []⟩,
        ⟨1, 1, [1], [.active, .queued], [1], []⟩,
        ⟨1, 0, [], [.finished, .woken], [1], [1]⟩,
        ⟨1, 1, [], [.finished, .active], [1], [1]⟩,
        ⟨1, 0, [], [.finished, .finished], [1], [1]⟩],
      s.running ≤ 1 ∧ s.queuedLog = s.wokenLog ++ s.queue :=
  ⟨by decide, by decide,
    useConcurrentQueue_c1_amended 2 1 [.submit 0, .submit 1]
      [.finish 0, .resume 1, .finish 1]
      [⟨1, 0, [], [.idle, .idle], [], []⟩,
        ⟨1, 1, [], [.active, .idle], [], []⟩,
        ⟨1, 1, [1], [.active, .queued], [1], []⟩,
        ⟨1, 0, [], [.finished, .woken], [1], [1]⟩,
        ⟨1, 1, [], [.finished, .active], [1], [1]⟩,
        ⟨1, 0, [], [.finished, .finished], [1], [1]⟩]
      (by decide) (by decide) (by decide)⟩
